import Mathlib

/-!
# A heap-level model of `single-linked-list.h`

The C++ class template `SingleLinkedList<Type>` is embedded over an explicit
heap of nodes.  Every pointer of the source (`Node*`) is an `Option Nat`
(`none` is `nullptr`), every function of the source takes the heap it runs in
and returns the heap it leaves, and every `assert` / invalid dereference of the
source is a `Fault`.

* `Node`, `BasicIterator`, `SingleLinkedList` mirror the three types of the source.
  The sentinel `head_` is a `Node` as in the source; the object is identified by
  the address of its `head_` member.
* `size_t size_` is a `Nat`: it counts live nodes, is only decremented behind
  `assert(!IsEmpty())`, and cannot exceed the number of addressable nodes.
* Loops over node chains take a `fuel` argument; running out of fuel is the
  fault `Fault.outOfFuel`.
* `std::equal` (three-iterator form) and `std::lexicographical_compare` are
  transcribed from their definition in the C++ standard.
* Assertions are modelled as enabled (a debug build).
-/

namespace SLL

/-- Abnormal outcomes of the modelled code. -/
inductive Fault where
  /-- an `assert(...)` of the source failed -/
  | assertion
  /-- a null or dangling `Node*` was dereferenced without a preceding assert -/
  | undefined
  /-- the loop bound of the model was exhausted -/
  | outOfFuel
  deriving DecidableEq, Repr

/-- `struct Node { Type value; Node* next_node = nullptr; }`.  A node address is a
natural number, and `Node*` is `Option Nat` with `none` for `nullptr`. -/
structure Node (α : Type) where
  value : α
  next_node : Option Nat
  deriving DecidableEq, Repr

/-- The store of nodes: cell `a` is `some n` while a node lives at address `a`,
`none` after `delete`; addresses at or beyond the length were never allocated. -/
abbrev Heap (α : Type) := List (Option (Node α))

variable {α : Type}

/-- Read the node a non-null pointer refers to: `*p`. -/
def Heap.load (h : Heap α) (p : Nat) : Except Fault (Node α) :=
  match h[p]? with
  | some (some n) => .ok n
  | _ => .error .undefined

/-- Read `p->next_node`. -/
def Heap.next (h : Heap α) (p : Nat) : Except Fault (Option Nat) :=
  match h.load p with
  | .ok n => .ok n.next_node
  | .error e => .error e

/-- Write `p->next_node = nx`. -/
def Heap.setNext (h : Heap α) (p : Nat) (nx : Option Nat) : Except Fault (Heap α) :=
  match h.load p with
  | .ok n => .ok (h.set p (some ⟨n.value, nx⟩))
  | .error e => .error e

/-- Allocation `new Node(...)`: a fresh address holding `n`. -/
def Heap.new (h : Heap α) (n : Node α) : Heap α × Nat :=
  (h ++ [some n], h.length)

/-- Deallocation `delete p` of a non-null pointer. -/
def Heap.delete (h : Heap α) (p : Nat) : Heap α :=
  h.set p none

/-- `BasicIterator<ValueType>`: a cursor holding `Node* node_`. Both the mutable
and the read-only flavour have this one representation. -/
structure BasicIterator where
  node_ : Option Nat
  deriving DecidableEq, Repr

namespace BasicIterator

/-- `operator==` of iterators: node identity. -/
def eq (a b : BasicIterator) : Bool := a.node_ == b.node_

/-- `operator!=` of iterators. -/
def ne (a b : BasicIterator) : Bool := a.node_ != b.node_

/-- `operator++`: `assert(node_ != nullptr); node_ = node_->next_node;`. -/
def incr (h : Heap α) (it : BasicIterator) : Except Fault BasicIterator :=
  match it.node_ with
  | none => .error .assertion
  | some p =>
    match h.next p with
    | .ok nx => .ok ⟨nx⟩
    | .error e => .error e

/-- `operator*`: `assert(node_ != nullptr); return node_->value;`. -/
def deref (h : Heap α) (it : BasicIterator) : Except Fault α :=
  match it.node_ with
  | none => .error .assertion
  | some p =>
    match h.load p with
    | .ok n => .ok n.value
    | .error e => .error e

end BasicIterator

/-- The object `SingleLinkedList<Type>`: `head_` is the address of the embedded
sentinel node `Node head_`, `size_` the member `size_t size_`. -/
structure SingleLinkedList where
  head_ : Nat
  size_ : Nat
  deriving DecidableEq, Repr

namespace SingleLinkedList

/-- `SingleLinkedList() {}`: a fresh object, `head_.next_node == nullptr`, `size_ == 0`. -/
def init [Inhabited α] (h : Heap α) : Heap α × SingleLinkedList :=
  let r := h.new ⟨default, none⟩
  (r.1, ⟨r.2, 0⟩)

/-- `GetSize()`. -/
def GetSize (l : SingleLinkedList) : Nat := l.size_

/-- `IsEmpty()`: `size_ == 0`. -/
def IsEmpty (l : SingleLinkedList) : Bool := l.size_ == 0

/-- `begin()`: `Iterator{ head_.next_node }`. -/
def begin (h : Heap α) (l : SingleLinkedList) : Except Fault BasicIterator :=
  match h.next l.head_ with
  | .ok nx => .ok ⟨nx⟩
  | .error e => .error e

/-- `end()`: `Iterator{ nullptr }`. -/
def end_ (_l : SingleLinkedList) : BasicIterator := ⟨none⟩

/-- `before_begin()`: `Iterator(&head_)`. -/
def before_begin (l : SingleLinkedList) : BasicIterator := ⟨some l.head_⟩

/-- `PushFront(value)`:
`head_.next_node = new Node(value, head_.next_node); ++size_;`. -/
def PushFront (h : Heap α) (l : SingleLinkedList) (value : α) :
    Except Fault (Heap α × SingleLinkedList) := do
  let first ← h.next l.head_
  let r := h.new ⟨value, first⟩
  let h2 ← r.1.setNext l.head_ (some r.2)
  return (h2, { l with size_ := l.size_ + 1 })

/-- `PopFront()`: `assert(!IsEmpty());` then unlink and delete the first node, `--size_`. -/
def PopFront (h : Heap α) (l : SingleLinkedList) :
    Except Fault (Heap α × SingleLinkedList) :=
  if l.IsEmpty then .error .assertion
  else do
    let first ← h.next l.head_
    match first with
    | none => .error .undefined
    | some f =>
      let temp ← h.next f
      let h1 := h.delete f
      let h2 ← h1.setNext l.head_ temp
      return (h2, { l with size_ := l.size_ - 1 })

/-- The `while (head_.next_node)` loop of `Clear()`. -/
def clearLoop : Nat → Heap α → Nat → Except Fault (Heap α)
  | 0, _, _ => .error .outOfFuel
  | fuel + 1, h, hd => do
    let first ← h.next hd
    match first with
    | none => return h
    | some f =>
      let temp ← h.next f
      let h1 := h.delete f
      let h2 ← h1.setNext hd temp
      clearLoop fuel h2 hd

/-- `Clear()`: delete every node, then `size_ = 0`. -/
def Clear (fuel : Nat) (h : Heap α) (l : SingleLinkedList) :
    Except Fault (Heap α × SingleLinkedList) := do
  let h1 ← clearLoop fuel h l.head_
  return (h1, { l with size_ := 0 })

/-- `~SingleLinkedList()`: `Clear()`, after which the storage of the object
(its sentinel) is released. -/
def destroy (fuel : Nat) (h : Heap α) (l : SingleLinkedList) : Except Fault (Heap α) := do
  let r ← Clear fuel h l
  return r.1.delete l.head_

/-- `swap(other)`: `std::swap(other.head_.next_node, head_.next_node);
std::swap(other.size_, size_);`.  Returns the heap, `*this` and `other`. -/
def swap (h : Heap α) (this other : SingleLinkedList) :
    Except Fault (Heap α × SingleLinkedList × SingleLinkedList) := do
  let a ← h.next other.head_
  let b ← h.next this.head_
  let h1 ← h.setNext other.head_ b
  let h2 ← h1.setNext this.head_ a
  return (h2, { this with size_ := other.size_ }, { other with size_ := this.size_ })

/-- `InsertAfter(pos, value)`. -/
def InsertAfter (h : Heap α) (l : SingleLinkedList) (pos : BasicIterator) (value : α) :
    Except Fault (Heap α × SingleLinkedList × BasicIterator) :=
  match pos.node_ with
  | none => .error .assertion
  | some p => do
    let nx ← h.next p
    let r := h.new ⟨value, nx⟩
    let h2 ← r.1.setNext p (some r.2)
    let res ← h2.next p
    return (h2, { l with size_ := l.size_ + 1 }, ⟨res⟩)

/-- `EraseAfter(pos)`. -/
def EraseAfter (h : Heap α) (l : SingleLinkedList) (pos : BasicIterator) :
    Except Fault (Heap α × SingleLinkedList × BasicIterator) :=
  if l.IsEmpty then .error .assertion
  else
    match pos.node_ with
    | none => .error .assertion
    | some p => do
      let succ ← h.next p
      match succ with
      | none => .error .undefined
      | some s =>
        let next ← h.next s
        let h1 := h.delete s
        let h2 ← h1.setNext p next
        return (h2, { l with size_ := l.size_ - 1 }, ⟨next⟩)

/-- The loop `for (auto it = first; it != last; ++it) dst.PushFront(*it);`
of `Assign`, over list iterators. -/
def pushRange : Nat → Heap α → SingleLinkedList → BasicIterator → BasicIterator →
    Except Fault (Heap α × SingleLinkedList)
  | 0, _, _, _, _ => .error .outOfFuel
  | fuel + 1, h, dst, it, last =>
    if it.ne last then do
      let v ← it.deref h
      let r ← PushFront h dst v
      let it1 ← it.incr r.1
      pushRange fuel r.1 r.2 it1 last
    else return (h, dst)

/-- The same loop over the array of a `std::initializer_list<Type>`, whose
iterators are plain `const Type*`. -/
def pushValues : Heap α → SingleLinkedList → List α → Except Fault (Heap α × SingleLinkedList)
  | h, dst, [] => return (h, dst)
  | h, dst, v :: vs => do
    let r ← PushFront h dst v
    pushValues r.1 r.2 vs

/-- The part of `Assign` after its first loop: the second loop that pushes
`reversed` onto `tmp`, `swap(tmp)`, and the destructors of the two locals
(in reverse order of declaration). -/
def assignTail [Inhabited α] (fuel : Nat) (h : Heap α)
    (this tmp reversed : SingleLinkedList) : Except Fault (Heap α × SingleLinkedList) := do
  let b ← begin h reversed
  let r ← pushRange fuel h tmp b reversed.end_
  let s ← swap r.1 this r.2
  let h5 ← destroy fuel s.1 reversed
  let h6 ← destroy fuel h5 s.2.2
  return (h6, s.2.1)

/-- `Assign(begin, end)` instantiated at the pointers of an initializer list. -/
def AssignValues [Inhabited α] (fuel : Nat) (h : Heap α) (this : SingleLinkedList)
    (values : List α) : Except Fault (Heap α × SingleLinkedList) := do
  let t := init h
  let rv := init t.1
  let r ← pushValues rv.1 rv.2 values
  assignTail fuel r.1 this t.2 r.2

/-- `Assign(begin, end)` instantiated at `ConstIterator`. -/
def Assign [Inhabited α] (fuel : Nat) (h : Heap α) (this : SingleLinkedList)
    (first last : BasicIterator) : Except Fault (Heap α × SingleLinkedList) := do
  let t := init h
  let rv := init t.1
  let r ← pushRange fuel rv.1 rv.2 first last
  assignTail fuel r.1 this t.2 r.2

/-- `SingleLinkedList(std::initializer_list<Type> values)`. -/
def ofValues [Inhabited α] (fuel : Nat) (h : Heap α) (values : List α) :
    Except Fault (Heap α × SingleLinkedList) :=
  let o := init h
  AssignValues fuel o.1 o.2 values

/-- `SingleLinkedList(const SingleLinkedList& other)`:
`assert(size_ == 0 && head_.next_node == nullptr); Assign(other.begin(), other.end());`. -/
def copy [Inhabited α] (fuel : Nat) (h : Heap α) (other : SingleLinkedList) :
    Except Fault (Heap α × SingleLinkedList) := do
  let o := init h
  let nx ← o.1.next o.2.head_
  if o.2.size_ == 0 && nx == none then do
    let b ← begin o.1 other
    Assign fuel o.1 o.2 b other.end_
  else .error .assertion

/-- `operator=(rhs)`: `if (this != &rhs) { SingleLinkedList temp(rhs); swap(temp); }`,
with the destructor of `temp` at the end of the block. -/
def assign [Inhabited α] (fuel : Nat) (h : Heap α) (this rhs : SingleLinkedList) :
    Except Fault (Heap α × SingleLinkedList) :=
  if this.head_ ≠ rhs.head_ then do
    let c ← copy fuel h rhs
    let s ← swap c.1 this c.2
    let h3 ← destroy fuel s.1 s.2.2
    return (h3, s.2.1)
  else return (h, this)

end SingleLinkedList

open SingleLinkedList

/-- `std::equal(first1, last1, first2)`:
`for (; first1 != last1; ++first1, ++first2) if (!(*first1 == *first2)) return false;
return true;`. -/
def std_equal [BEq α] : Nat → Heap α → BasicIterator → BasicIterator → BasicIterator →
    Except Fault Bool
  | 0, _, _, _, _ => .error .outOfFuel
  | fuel + 1, h, first1, last1, first2 =>
    if first1.ne last1 then do
      let a ← first1.deref h
      let b ← first2.deref h
      if !(a == b) then return false
      else do
        let i1 ← first1.incr h
        let i2 ← first2.incr h
        std_equal fuel h i1 last1 i2
    else return true

/-- `std::lexicographical_compare(first1, last1, first2, last2)`:
`for (; first1 != last1 && first2 != last2; ++first1, ++first2) {
   if (*first1 < *first2) return true; if (*first2 < *first1) return false; }
 return first1 == last1 && first2 != last2;`. -/
def std_lexicographical_compare [LT α] [DecidableRel (fun (a b : α) => a < b)] :
    Nat → Heap α → BasicIterator → BasicIterator → BasicIterator → BasicIterator →
    Except Fault Bool
  | 0, _, _, _, _, _ => .error .outOfFuel
  | fuel + 1, h, first1, last1, first2, last2 =>
    if first1.ne last1 && first2.ne last2 then do
      let a ← first1.deref h
      let b ← first2.deref h
      if a < b then return true
      else do
        let b2 ← first2.deref h
        let a2 ← first1.deref h
        if b2 < a2 then return false
        else do
          let i1 ← first1.incr h
          let i2 ← first2.incr h
          std_lexicographical_compare fuel h i1 last1 i2 last2
    else return (first1.eq last1 && first2.ne last2)

/-- `operator==(lhs, rhs)`: `equal(lhs.begin(), lhs.end(), rhs.begin())`. -/
def opEq [BEq α] (fuel : Nat) (h : Heap α) (lhs rhs : SingleLinkedList) :
    Except Fault Bool := do
  let b1 ← begin h lhs
  let b2 ← begin h rhs
  std_equal fuel h b1 lhs.end_ b2

/-- `operator!=(lhs, rhs)`: `!(lhs == rhs)`. -/
def opNe [BEq α] (fuel : Nat) (h : Heap α) (lhs rhs : SingleLinkedList) :
    Except Fault Bool := do
  let r ← opEq fuel h lhs rhs
  return !r

/-- `operator<(lhs, rhs)`:
`std::lexicographical_compare(lhs.begin(), lhs.end(), rhs.begin(), rhs.end())`. -/
def opLt [LT α] [DecidableRel (fun (a b : α) => a < b)] (fuel : Nat) (h : Heap α)
    (lhs rhs : SingleLinkedList) : Except Fault Bool := do
  let b1 ← begin h lhs
  let b2 ← begin h rhs
  std_lexicographical_compare fuel h b1 lhs.end_ b2 rhs.end_

/-- `operator>(lhs, rhs)`: `rhs < lhs`. -/
def opGt [LT α] [DecidableRel (fun (a b : α) => a < b)] (fuel : Nat) (h : Heap α)
    (lhs rhs : SingleLinkedList) : Except Fault Bool :=
  opLt fuel h rhs lhs

/-- `operator<=(lhs, rhs)`: `!(rhs > lhs)`. -/
def opLe [LT α] [DecidableRel (fun (a b : α) => a < b)] (fuel : Nat) (h : Heap α)
    (lhs rhs : SingleLinkedList) : Except Fault Bool := do
  let r ← opGt fuel h rhs lhs
  return !r

/-- `operator>=(lhs, rhs)`: `!(lhs < rhs)`. -/
def opGe [LT α] [DecidableRel (fun (a b : α) => a < b)] (fuel : Nat) (h : Heap α)
    (lhs rhs : SingleLinkedList) : Except Fault Bool := do
  let r ← opLt fuel h lhs rhs
  return !r

/-- Traversal `for (auto it = first; it != last; ++it) out.push_back(*it);`:
the values met from `first` up to `last`. -/
def traverseFrom : Nat → Heap α → BasicIterator → BasicIterator → Except Fault (List α)
  | 0, _, _, _ => .error .outOfFuel
  | fuel + 1, h, it, last =>
    if it.ne last then do
      let v ← it.deref h
      let it1 ← it.incr h
      let rest ← traverseFrom fuel h it1 last
      return v :: rest
    else return []

/-- The traversal sequence of a list: the values from `begin()` to `end()`. -/
def traverse (fuel : Nat) (h : Heap α) (l : SingleLinkedList) : Except Fault (List α) := do
  let b ← begin h l
  traverseFrom fuel h b l.end_

/-! ## Representation predicates -/

/-- The nodes at addresses `as` are live, hold the values `xs` in this order, and
each one's `next_node` is the following address (`nullptr` for the last). -/
def Chain (h : Heap α) : List Nat → List α → Prop
  | [], [] => True
  | a :: as, x :: xs => h[a]? = some (some ⟨x, as.head?⟩) ∧ Chain h as xs
  | _, _ => False

/-- The object `l` is a well-formed list in heap `h`: its sentinel is live and
points to the first of the nodes `as`, these form a null-terminated chain holding
`xs`, no node occurs twice (the chain is acyclic and does not contain the
sentinel), and `size_` is the number of nodes. -/
structure Valid (h : Heap α) (l : SingleLinkedList) (as : List Nat) (xs : List α) : Prop where
  head : ∃ v, h[l.head_]? = some (some ⟨v, as.head?⟩)
  chain : Chain h as xs
  nodup : (l.head_ :: as).Nodup
  size : l.size_ = xs.length

/-- Heap `g` extends `h` and agrees with it on every address of `h` outside `S`. -/
def Frame (h g : Heap α) (S : List Nat) : Prop :=
  h.length ≤ g.length ∧ ∀ a, a < h.length → a ∉ S → g[a]? = h[a]?

/-- Lexicographic order in the words of the specification: at the first index `i`
where the two sequences differ (they agree on the first `i` elements), either the
left sequence has ended while the right one has not (a strict prefix: the shorter is
less), or both have an element there and the left one is the smaller. -/
def LexLess [LT α] (xs ys : List α) : Prop :=
  ∃ i, i < ys.length ∧ xs.take i = ys.take i ∧
    (xs.length = i ∨ ∃ x y, xs[i]? = some x ∧ ys[i]? = some y ∧ x < y)

/-- The value `std::lexicographical_compare` computes on two element sequences. -/
def lexCompare [LT α] [DecidableRel (fun (a b : α) => a < b)] : List α → List α → Bool
  | [], [] => false
  | [], _ :: _ => true
  | _ :: _, [] => false
  | x :: xs, y :: ys => if x < y then true else if y < x then false else lexCompare xs ys

/-- A small heap: the sentinel of one list at address `0`, its two nodes holding
`10` and `20` at addresses `1` and `2`; the sentinel of a second list at address `3`,
its three nodes holding `10`, `20`, `30` at addresses `4`, `5`, `6`. -/
def demoHeap : Heap Nat :=
  [some ⟨0, some 1⟩, some ⟨10, some 2⟩, some ⟨20, none⟩,
   some ⟨0, some 4⟩, some ⟨10, some 5⟩, some ⟨20, some 6⟩, some ⟨30, none⟩]

/-- The list `{10, 20}` of `demoHeap`. -/
def demoList : SingleLinkedList := ⟨0, 2⟩

/-- The list `{10, 20, 30}` of `demoHeap`. -/
def demoList3 : SingleLinkedList := ⟨3, 3⟩

/-- The comparison `SingleLinkedList<Type>{xs} == SingleLinkedList<Type>{ys}`: both lists
are built by the initializer-list constructor in an empty heap and compared by
`operator==`. -/
def eqOfValues [Inhabited α] [BEq α] (fuel : Nat) (xs ys : List α) : Except Fault Bool := do
  let a ← ofValues fuel ([] : Heap α) xs
  let b ← ofValues fuel a.1 ys
  opEq fuel b.1 a.2 b.2

/-- The comparison `SingleLinkedList<Type>{xs} <= SingleLinkedList<Type>{ys}`, both lists
built by the initializer-list constructor in an empty heap. -/
def leOfValues [Inhabited α] [LT α] [DecidableRel (fun (a b : α) => a < b)] (fuel : Nat)
    (xs ys : List α) : Except Fault Bool := do
  let a ← ofValues fuel ([] : Heap α) xs
  let b ← ofValues fuel a.1 ys
  opLe fuel b.1 a.2 b.2

/-- `swap(lhs, rhs)`, the free function: `lhs.swap(rhs)`. -/
def swapFree (h : Heap α) (lhs rhs : SingleLinkedList) :
    Except Fault (Heap α × SingleLinkedList × SingleLinkedList) :=
  SingleLinkedList.swap h lhs rhs

/-- One call of the front interface: `PushFront(value)` or `PopFront()`. -/
inductive FrontOp (α : Type) where
  | push (value : α)
  | pop

/-- Run a sequence of `PushFront` / `PopFront` calls on one list, in order. -/
def runFrontOps : Heap α → SingleLinkedList → List (FrontOp α) →
    Except Fault (Heap α × SingleLinkedList)
  | h, l, [] => return (h, l)
  | h, l, .push v :: ops => do
    let r ← PushFront h l v
    runFrontOps r.1 r.2 ops
  | h, l, .pop :: ops => do
    let r ← PopFront h l
    runFrontOps r.1 r.2 ops

/-- Number of `PushFront` calls in a sequence. -/
def pushCount : List (FrontOp α) → Nat
  | [] => 0
  | .push _ :: ops => pushCount ops + 1
  | .pop :: ops => pushCount ops

/-- Number of `PopFront` calls in a sequence. -/
def popCount : List (FrontOp α) → Nat
  | [] => 0
  | .push _ :: ops => popCount ops
  | .pop :: ops => popCount ops + 1

/-- The values pushed by a sequence, in call order. -/
def pushedValues : List (FrontOp α) → List α
  | [] => []
  | .push v :: ops => v :: pushedValues ops
  | .pop :: ops => pushedValues ops

/-- Every `PopFront` of the sequence is called while the list holds at least one
element, the list holding `n` elements at the start. -/
def PopsGuarded : Nat → List (FrontOp α) → Prop
  | _, [] => True
  | n, .push _ :: ops => PopsGuarded (n + 1) ops
  | n, .pop :: ops => 0 < n ∧ PopsGuarded (n - 1) ops

/-- A mutating call on a list. -/
inductive Mutation (α : Type) where
  | pushFront (value : α)
  | popFront
  | clear
  | insertAfter (pos : BasicIterator) (value : α)
  | eraseAfter (pos : BasicIterator)

/-- Apply one mutating call to the list `l`. -/
def mutate (fuel : Nat) (h : Heap α) (l : SingleLinkedList) :
    Mutation α → Except Fault (Heap α × SingleLinkedList)
  | .pushFront v => PushFront h l v
  | .popFront => PopFront h l
  | .clear => Clear fuel h l
  | .insertAfter pos v => do
    let r ← InsertAfter h l pos v
    return (r.1, r.2.1)
  | .eraseAfter pos => do
    let r ← EraseAfter h l pos
    return (r.1, r.2.1)

/-- The precondition of a mutating call on the list with sentinel `l.head_` and
nodes `as`: `PopFront` needs a non-empty list, `InsertAfter` a position of this list
(the sentinel or one of its nodes), `EraseAfter` a position of this list that is not
its last one. -/
def Mutation.Pre (l : SingleLinkedList) (as : List Nat) : Mutation α → Prop
  | .pushFront _ => True
  | .popFront => as ≠ []
  | .clear => True
  | .insertAfter pos _ => ∃ (k p : Nat), pos = ⟨some p⟩ ∧ (l.head_ :: as)[k]? = some p
  | .eraseAfter pos => ∃ (k p : Nat), pos = ⟨some p⟩ ∧ (l.head_ :: as)[k]? = some p ∧ k < as.length

/-- Apply `operator++` to an iterator `k` times. -/
def advance : Nat → Heap α → BasicIterator → Except Fault BasicIterator
  | 0, _, it => return it
  | k + 1, h, it => do
    let it1 ← it.incr h
    advance k h it1

/-- The nodes reached from the pointer `p` by following `next_node` until `nullptr`. -/
def nodesFrom : Nat → Heap α → Option Nat → Except Fault (List Nat)
  | 0, _, _ => .error .outOfFuel
  | _ + 1, _, none => return []
  | fuel + 1, h, some a => do
    let nx ← h.next a
    let rest ← nodesFrom fuel h nx
    return a :: rest

/-- The nodes of a list: those reached from `head_.next_node`. -/
def nodes (fuel : Nat) (h : Heap α) (l : SingleLinkedList) : Except Fault (List Nat) := do
  let first ← h.next l.head_
  nodesFrom fuel h first

/-- The number of nodes reachable from `head_.next_node`. -/
def countNodes (fuel : Nat) (h : Heap α) (l : SingleLinkedList) : Except Fault Nat := do
  let ns ← nodes fuel h l
  return ns.length

/-- The size invariant: following `next_node` from `head_.next_node` reaches `nullptr`,
and the number of nodes met is the stored `size_`. -/
def SizeInv (h : Heap α) (l : SingleLinkedList) : Prop :=
  ∃ fuel, countNodes fuel h l = .ok l.size_

/-- The pointer `p` is a position of the list `l`: its sentinel or one of its nodes. -/
def Position (h : Heap α) (l : SingleLinkedList) (p : Nat) : Prop :=
  ∃ fuel ns, nodes fuel h l = .ok ns ∧ p ∈ l.head_ :: ns

/-- The element type `double` as far as `operator==` sees it: the value `NaN`, and the
numbers `0, 1, 2, ...`. -/
inductive Dbl where
  | nan
  | val (n : Nat)
  deriving Repr

/-- `operator==` of `double`: `NaN` compares unequal to everything, itself included. -/
def Dbl.beq : Dbl → Dbl → Bool
  | .val a, .val b => a == b
  | _, _ => false

instance Dbl.instBEq : BEq Dbl := ⟨Dbl.beq⟩

instance Dbl.instInhabited : Inhabited Dbl := ⟨.val 0⟩

/-- A heap with two lists of `double`: `{1, NaN}` (sentinel `0`, nodes `1`, `2`) and
`{1, 2}` (sentinel `3`, nodes `4`, `5`). -/
def nanHeap : Heap Dbl :=
  [some ⟨.val 0, some 1⟩, some ⟨.val 1, some 2⟩, some ⟨.nan, none⟩,
   some ⟨.val 0, some 4⟩, some ⟨.val 1, some 5⟩, some ⟨.val 2, none⟩]

/-- The list `{1, NaN}` of `nanHeap`. -/
def nanList : SingleLinkedList := ⟨0, 2⟩

/-- The list `{1, 2}` of `nanHeap`. -/
def numList : SingleLinkedList := ⟨3, 2⟩

/-- The comparison `l == l` of the list `l = SingleLinkedList<Type>{xs}` with itself, the
list built by the initializer-list constructor in an empty heap. -/
def eqSelfOfValues [Inhabited α] [BEq α] (fuel : Nat) (xs : List α) : Except Fault Bool := do
  let a ← ofValues fuel ([] : Heap α) xs
  opEq fuel a.1 a.2 a.2

/-- The value `std::equal` computes on two element sequences the second of which is
at least as long as the first: every element of the first sequence is `==` to the
element of the second at the same index. -/
def allEq [BEq α] : List α → List α → Bool
  | x :: xs, y :: ys => (x == y) && allEq xs ys
  | _, _ => true

/-! ## Heap lemmas -/

theorem Heap.get_set_ne (h : Heap α) {a p : Nat} (c : Option (Node α)) (hne : a ≠ p) :
    (h.set p c)[a]? = h[a]? := by
  simp [List.getElem?_set, Ne.symm hne]

theorem Heap.get_set_eq (h : Heap α) {p : Nat} (c : Option (Node α)) (hp : p < h.length) :
    (h.set p c)[p]? = some c := by
  simp [List.getElem?_set, hp]

theorem Heap.get_append_lt (h : Heap α) {a : Nat} (c : Option (Node α)) (ha : a < h.length) :
    (h ++ [c])[a]? = h[a]? := by
  simp [List.getElem?_append, ha]

theorem Heap.get_append_len (h : Heap α) (c : Option (Node α)) :
    (h ++ [c])[h.length]? = some c := by
  simp [List.getElem?_append]

theorem Heap.lt_of_get {h : Heap α} {a : Nat} {c : Option (Node α)} (hc : h[a]? = some c) :
    a < h.length := by
  by_contra hlt
  have : h[a]? = none := List.getElem?_eq_none (Nat.le_of_not_lt hlt)
  simp [this] at hc

theorem Heap.load_of_get {h : Heap α} {a : Nat} {n : Node α} (hc : h[a]? = some (some n)) :
    h.load a = .ok n := by
  simp [Heap.load, hc]

theorem Heap.next_of_get {h : Heap α} {a : Nat} {n : Node α} (hc : h[a]? = some (some n)) :
    h.next a = .ok n.next_node := by
  simp [Heap.next, Heap.load_of_get hc]

theorem Heap.setNext_of_get {h : Heap α} {a : Nat} {n : Node α} (nx : Option Nat)
    (hc : h[a]? = some (some n)) :
    h.setNext a nx = .ok (h.set a (some ⟨n.value, nx⟩)) := by
  simp [Heap.setNext, Heap.load_of_get hc]

/-! ## Frames -/

theorem Frame.refl (h : Heap α) (S : List Nat) : Frame h h S :=
  ⟨Nat.le_refl _, fun _ _ _ => rfl⟩

theorem Frame.trans {h g k : Heap α} {S T : List Nat} (h1 : Frame h g S) (h2 : Frame g k T)
    (hsub : ∀ a ∈ T, a < h.length → a ∈ S) : Frame h k S := by
  refine ⟨Nat.le_trans h1.1 h2.1, fun a ha hS => ?_⟩
  have hT : a ∉ T := fun hT => hS (hsub a hT ha)
  rw [h2.2 a (Nat.lt_of_lt_of_le ha h1.1) hT, h1.2 a ha hS]

theorem Frame.mono {h g : Heap α} {S T : List Nat} (h1 : Frame h g S)
    (hsub : ∀ a ∈ S, a < h.length → a ∈ T) : Frame h g T :=
  ⟨h1.1, fun a ha hT => h1.2 a ha (fun hS => hT (hsub a hS ha))⟩

theorem Frame.set {h : Heap α} {p : Nat} (c : Option (Node α)) {S : List Nat} (hp : p ∈ S) :
    Frame h (h.set p c) S := by
  refine ⟨by simp, fun a _ hS => Heap.get_set_ne h c ?_⟩
  rintro rfl
  exact hS hp

theorem Frame.append (h : Heap α) (c : Option (Node α)) (S : List Nat) :
    Frame h (h ++ [c]) S :=
  ⟨by simp, fun _ ha _ => Heap.get_append_lt h c ha⟩

/-! ## Chains -/

theorem Chain.length_eq {h : Heap α} : ∀ {as : List Nat} {xs : List α},
    Chain h as xs → as.length = xs.length
  | [], [], _ => rfl
  | _ :: _, _ :: _, hc => by
    have := Chain.length_eq hc.2
    simp [this]
  | [], _ :: _, hc => by simp [Chain] at hc
  | _ :: _, [], hc => by simp [Chain] at hc

theorem Chain.lt_length {h : Heap α} : ∀ {as : List Nat} {xs : List α},
    Chain h as xs → ∀ a ∈ as, a < h.length
  | [], [], _ => by simp
  | b :: as, _ :: xs, hc => by
    intro a ha
    rcases List.mem_cons.1 ha with rfl | ha
    · exact Heap.lt_of_get hc.1
    · exact Chain.lt_length hc.2 a ha
  | [], _ :: _, hc => by simp [Chain] at hc
  | _ :: _, [], hc => by simp [Chain] at hc

theorem Chain.congr {h g : Heap α} : ∀ {as : List Nat} {xs : List α},
    Chain h as xs → (∀ a ∈ as, g[a]? = h[a]?) → Chain g as xs
  | [], [], _, _ => trivial
  | b :: as, _ :: xs, hc, hg => by
    refine ⟨?_, Chain.congr hc.2 (fun a ha => hg a (List.mem_cons_of_mem _ ha))⟩
    rw [hg b (List.mem_cons_self _ _)]
    exact hc.1
  | [], _ :: _, hc, _ => by simp [Chain] at hc
  | _ :: _, [], hc, _ => by simp [Chain] at hc

theorem Chain.keep {h g : Heap α} {S : List Nat} {as : List Nat} {xs : List α}
    (hc : Chain h as xs) (hf : Frame h g S) (hd : ∀ a ∈ as, a ∉ S) : Chain g as xs :=
  hc.congr (fun a ha => hf.2 a (hc.lt_length a ha) (hd a ha))

theorem Valid.head_lt {h : Heap α} {l : SingleLinkedList} {as : List Nat} {xs : List α}
    (hv : Valid h l as xs) : l.head_ < h.length := by
  obtain ⟨v, hv1⟩ := hv.head
  exact Heap.lt_of_get hv1

theorem Valid.carry {h g : Heap α} {S : List Nat} {l : SingleLinkedList} {as : List Nat}
    {xs : List α} (hv : Valid h l as xs) (hf : Frame h g S)
    (hd : ∀ a ∈ l.head_ :: as, a ∉ S) : Valid g l as xs := by
  obtain ⟨v, hv1⟩ := hv.head
  refine ⟨⟨v, ?_⟩, hv.chain.keep hf (fun a ha => hd a (List.mem_cons_of_mem _ ha)),
    hv.nodup, hv.size⟩
  rw [hf.2 _ hv.head_lt (hd _ (List.mem_cons_self _ _))]
  exact hv1

/-! ## Specifications of the member functions -/

theorem init_spec [Inhabited α] (h : Heap α) :
    (init h).2 = ⟨h.length, 0⟩ ∧ (init h).1 = h ++ [some ⟨default, none⟩] ∧
      Valid (init h).1 (init h).2 [] [] ∧ Frame h (init h).1 [] := by
  refine ⟨rfl, rfl, ⟨⟨default, ?_⟩, trivial, by simp, rfl⟩, Frame.append _ _ _⟩
  exact Heap.get_append_len h _

theorem PushFront_spec {h : Heap α} {l : SingleLinkedList} {as : List Nat} {xs : List α}
    (hv : Valid h l as xs) (v : α) :
    ∃ g, PushFront h l v = .ok (g, ⟨l.head_, l.size_ + 1⟩) ∧
      Valid g ⟨l.head_, l.size_ + 1⟩ (h.length :: as) (v :: xs) ∧
      Frame h g [l.head_] ∧ g.length = h.length + 1 := by
  obtain ⟨sv, hs⟩ := hv.head
  have hlt := hv.head_lt
  have hs1 : (h ++ [some (Node.mk v as.head?)])[l.head_]? = some (some ⟨sv, as.head?⟩) := by
    rw [Heap.get_append_lt h _ hlt]; exact hs
  have hne : h.length ≠ l.head_ := Nat.ne_of_gt hlt
  refine ⟨(h ++ [some (Node.mk v as.head?)]).set l.head_ (some (Node.mk sv (some h.length))),
    ?_, ?_, ?_, ?_⟩
  · simp [PushFront, Heap.next_of_get hs, Heap.new, Heap.setNext_of_get _ hs1, bind,
      Except.bind, pure, Except.pure]
  · have hfr : Frame h ((h ++ [some (Node.mk v as.head?)]).set l.head_
        (some (Node.mk sv (some h.length)))) [l.head_] :=
      (Frame.append h _ [l.head_]).trans (Frame.set _ (List.mem_singleton_self _))
        (fun a ha _ => ha)
    refine ⟨⟨sv, ?_⟩, ⟨?_, ?_⟩, ?_, ?_⟩
    · have hl : l.head_ < (h ++ [some (Node.mk v as.head?)]).length := by
        simp only [List.length_append, List.length_singleton]
        omega
      exact Heap.get_set_eq _ _ hl
    · rw [Heap.get_set_ne _ _ hne]
      exact Heap.get_append_len h _
    · refine hv.chain.keep hfr (fun a ha => ?_)
      have := (List.nodup_cons.1 hv.nodup).1
      simp only [List.mem_singleton]
      rintro rfl
      exact this ha
    · have hnd := List.nodup_cons.1 hv.nodup
      refine List.nodup_cons.2 ⟨?_, List.nodup_cons.2 ⟨?_, hnd.2⟩⟩
      · simp only [List.mem_cons, not_or]
        exact ⟨Ne.symm hne, hnd.1⟩
      · intro hm
        exact Nat.lt_irrefl _ (hv.chain.lt_length _ hm)
    · simp [hv.size]
  · exact (Frame.append h _ [l.head_]).trans (Frame.set _ (List.mem_singleton_self _))
      (fun a ha _ => ha)
  · simp

theorem pushValues_spec : ∀ (vs : List α) {h : Heap α} {l : SingleLinkedList} {as : List Nat}
    {xs : List α}, Valid h l as xs →
    ∃ g bs, pushValues h l vs = .ok (g, ⟨l.head_, l.size_ + vs.length⟩) ∧
      Valid g ⟨l.head_, l.size_ + vs.length⟩ (bs ++ as) (vs.reverse ++ xs) ∧
      Frame h g [l.head_] ∧ ∀ b ∈ bs, h.length ≤ b
  | [], h, l, as, xs, hv => ⟨h, [], rfl, by simpa using hv, Frame.refl _ _, by simp⟩
  | v :: vs, h, l, as, xs, hv => by
    obtain ⟨g, hp, hvg, hfg, hlen⟩ := PushFront_spec hv v
    obtain ⟨k, bs, hk, hvk, hfk, hbs⟩ := pushValues_spec vs hvg
    refine ⟨k, bs ++ [h.length], ?_, ?_, ?_, ?_⟩
    · simp only [pushValues, hp, bind, Except.bind]
      rw [hk]
      simp [Nat.add_assoc, Nat.add_comm 1]
    · have : l.size_ + (v :: vs).length = l.size_ + 1 + vs.length := by simp; omega
      rw [this]
      simpa using hvk
    · exact hfg.trans hfk (fun a ha _ => ha)
    · intro b hb
      rcases List.mem_append.1 hb with hb | hb
      · have := hbs b hb
        omega
      · simp at hb
        omega

/-! ## Iterators on a chain -/

theorem Chain.deref_head {h : Heap α} {a : Nat} {as : List Nat} {x : α} {xs : List α}
    (hc : Chain h (a :: as) (x :: xs)) : BasicIterator.deref h ⟨some a⟩ = .ok x := by
  simp [BasicIterator.deref, Heap.load_of_get hc.1]

theorem Chain.incr_head {h : Heap α} {a : Nat} {as : List Nat} {x : α} {xs : List α}
    (hc : Chain h (a :: as) (x :: xs)) : BasicIterator.incr h ⟨some a⟩ = .ok ⟨as.head?⟩ := by
  simp [BasicIterator.incr, Heap.next_of_get hc.1]

theorem Valid.begin_eq {h : Heap α} {l : SingleLinkedList} {as : List Nat} {xs : List α}
    (hv : Valid h l as xs) : begin h l = .ok ⟨as.head?⟩ := by
  obtain ⟨v, hs⟩ := hv.head
  simp [begin, Heap.next_of_get hs]

theorem pushRange_spec : ∀ (sxs : List α) {sas : List Nat} {h : Heap α} {l : SingleLinkedList}
    {as : List Nat} {xs : List α} (fuel : Nat), Chain h sas sxs → Valid h l as xs →
    l.head_ ∉ sas → sxs.length < fuel →
    ∃ g bs, pushRange fuel h l ⟨sas.head?⟩ ⟨none⟩ = .ok (g, ⟨l.head_, l.size_ + sxs.length⟩) ∧
      Valid g ⟨l.head_, l.size_ + sxs.length⟩ (bs ++ as) (sxs.reverse ++ xs) ∧
      Frame h g [l.head_] ∧ ∀ b ∈ bs, h.length ≤ b
  | [], [], h, l, as, xs, fuel, _, hv, _, hf => by
    obtain ⟨f, rfl⟩ : ∃ f, fuel = f + 1 := ⟨fuel - 1, by simp at hf; omega⟩
    exact ⟨h, [], by simp [pushRange, BasicIterator.ne, pure, Except.pure], by simpa using hv,
      Frame.refl _ _, by simp⟩
  | x :: sxs, a :: sas, h, l, as, xs, fuel, hc, hv, hnot, hf => by
    obtain ⟨f, rfl⟩ : ∃ f, fuel = f + 1 := ⟨fuel - 1, by simp at hf; omega⟩
    obtain ⟨g, hp, hvg, hfg, hlen⟩ := PushFront_spec hv x
    have hcg : Chain g (a :: sas) (x :: sxs) :=
      hc.keep hfg (fun b hb => by
        simp only [List.mem_singleton]
        rintro rfl
        exact hnot hb)
    have hnot2 : l.head_ ∉ sas := fun hm => hnot (List.mem_cons_of_mem _ hm)
    obtain ⟨k, bs, hk, hvk, hfk, hbs⟩ :=
      pushRange_spec sxs f hcg.2 hvg hnot2 (by simp at hf; omega)
    refine ⟨k, bs ++ [h.length], ?_, ?_, ?_, ?_⟩
    · simp only [pushRange, List.head?_cons, BasicIterator.ne, bne, Option.some_ne_none,
        hc.deref_head, hp, hcg.incr_head, bind, Except.bind]
      have hb : (!(some a == (none : Option Nat))) = true := by simp
      rw [if_pos hb, hk]
      simp [Nat.add_assoc, Nat.add_comm 1]
    · have : l.size_ + (x :: sxs).length = l.size_ + 1 + sxs.length := by simp; omega
      rw [this]
      simpa using hvk
    · exact hfg.trans hfk (fun a ha _ => ha)
    · intro b hb
      rcases List.mem_append.1 hb with hb | hb
      · have := hbs b hb
        omega
      · simp at hb
        omega
  | [], _ :: _, _, _, _, _, _, hc, _, _, _ => by simp [Chain] at hc
  | _ :: _, [], _, _, _, _, _, hc, _, _, _ => by simp [Chain] at hc

theorem clearLoop_spec : ∀ (as : List Nat) {xs : List α} {h : Heap α} {hd : Nat} {v : α}
    (fuel : Nat), h[hd]? = some (some ⟨v, as.head?⟩) → Chain h as xs → (hd :: as).Nodup →
    as.length < fuel →
    ∃ g, clearLoop fuel h hd = .ok g ∧ g[hd]? = some (some ⟨v, none⟩) ∧
      Frame h g (hd :: as) ∧ g.length = h.length
  | [], _, h, hd, v, fuel, hs, _, _, hf => by
    obtain ⟨f, rfl⟩ : ∃ f, fuel = f + 1 := ⟨fuel - 1, by simp at hf; omega⟩
    exact ⟨h, by simp [clearLoop, Heap.next_of_get hs, bind, Except.bind, pure, Except.pure],
      hs, Frame.refl _ _, rfl⟩
  | a :: as, [], _, _, _, _, _, hc, _, _ => by simp [Chain] at hc
  | a :: as, x :: xs, h, hd, v, fuel, hs, hc, hnd, hf => by
    obtain ⟨f, rfl⟩ : ∃ f, fuel = f + 1 := ⟨fuel - 1, by simp at hf; omega⟩
    have hnd1 := List.nodup_cons.1 hnd
    have hnd2 := List.nodup_cons.1 hnd1.2
    have hda : hd ≠ a := fun e => hnd1.1 (e ▸ List.mem_cons_self _ _)
    have hdlt : hd < h.length := Heap.lt_of_get hs
    have h1 : (h.set a none)[hd]? = some (some ⟨v, (a :: as).head?⟩) := by
      rw [Heap.get_set_ne h _ hda]; exact hs
    have h2 : ((h.set a none).set hd (some (Node.mk v as.head?)))[hd]? =
        some (some ⟨v, as.head?⟩) :=
      Heap.get_set_eq _ _ (by simpa using hdlt)
    have hfr : Frame h ((h.set a none).set hd (some (Node.mk v as.head?))) (hd :: a :: as) :=
      (Frame.set (h := h) none (List.mem_cons_of_mem _ (List.mem_cons_self a as))).trans
        (Frame.set _ (List.mem_cons_self hd (a :: as))) (fun _ hb _ => hb)
    have hc2 : Chain ((h.set a none).set hd (some (Node.mk v as.head?))) as xs := by
      refine hc.2.congr (fun b hb => ?_)
      have hba : b ≠ a := fun e => hnd2.1 (e ▸ hb)
      have hbd : b ≠ hd := fun e => hnd1.1 (e ▸ List.mem_cons_of_mem _ hb)
      rw [Heap.get_set_ne _ _ hbd, Heap.get_set_ne _ _ hba]
    have hnd3 : (hd :: as).Nodup :=
      List.nodup_cons.2 ⟨fun hm => hnd1.1 (List.mem_cons_of_mem _ hm), hnd2.2⟩
    obtain ⟨g, hg, hgs, hfg, hlen⟩ := clearLoop_spec as f h2 hc2 hnd3 (by simp at hf; omega)
    refine ⟨g, ?_, hgs, ?_, ?_⟩
    · simp only [clearLoop, Heap.next_of_get hs, Heap.next_of_get hc.1, Heap.delete,
        Heap.setNext_of_get _ h1, bind, Except.bind, List.head?_cons]
      exact hg
    · exact hfr.trans hfg (fun b hb _ => by
        rcases List.mem_cons.1 hb with rfl | hb
        · exact List.mem_cons_self _ _
        · exact List.mem_cons_of_mem _ (List.mem_cons_of_mem _ hb))
    · simpa using hlen

theorem destroy_spec {h : Heap α} {l : SingleLinkedList} {as : List Nat} {xs : List α}
    (fuel : Nat) (hv : Valid h l as xs) (hf : as.length < fuel) :
    ∃ g, destroy fuel h l = .ok g ∧ Frame h g (l.head_ :: as) ∧ g.length = h.length := by
  obtain ⟨v, hs⟩ := hv.head
  obtain ⟨g, hg, _, hfg, hlen⟩ := clearLoop_spec as fuel hs hv.chain hv.nodup hf
  refine ⟨g.delete l.head_, ?_, ?_, ?_⟩
  · simp [destroy, Clear, hg, bind, Except.bind, pure, Except.pure]
  · exact hfg.trans (Frame.set none (List.mem_cons_self _ _)) (fun _ hb _ => hb)
  · simpa [Heap.delete] using hlen

theorem swap_spec {h : Heap α} {a b : SingleLinkedList} {as bs : List Nat} {xs ys : List α}
    (ha : Valid h a as xs) (hb : Valid h b bs ys) (hne : a.head_ ≠ b.head_)
    (hab : a.head_ ∉ bs) (hba : b.head_ ∉ as) :
    ∃ g, swap h a b = .ok (g, ⟨a.head_, b.size_⟩, ⟨b.head_, a.size_⟩) ∧
      Valid g ⟨a.head_, b.size_⟩ bs ys ∧ Valid g ⟨b.head_, a.size_⟩ as xs ∧
      Frame h g [a.head_, b.head_] ∧ g.length = h.length := by
  obtain ⟨va, hsa⟩ := ha.head
  obtain ⟨vb, hsb⟩ := hb.head
  have h1 : (h.set b.head_ (some (Node.mk vb as.head?)))[a.head_]? =
      some (some ⟨va, as.head?⟩) := by
    rw [Heap.get_set_ne _ _ hne]; exact hsa
  have hfr : Frame h ((h.set b.head_ (some (Node.mk vb as.head?))).set a.head_
      (some (Node.mk va bs.head?))) [a.head_, b.head_] :=
    (Frame.set (h := h) _ (List.mem_cons_of_mem _ (List.mem_singleton_self _))).trans
      (Frame.set _ (List.mem_cons_self _ _)) (fun _ hb _ => hb)
  refine ⟨_, ?_, ⟨⟨va, ?_⟩, ?_, ?_, hb.size⟩, ⟨⟨vb, ?_⟩, ?_, ?_, ha.size⟩, hfr, by simp⟩
  · simp only [swap, Heap.next_of_get hsa, Heap.next_of_get hsb, Heap.setNext_of_get _ hsb,
      Heap.setNext_of_get _ h1, bind, Except.bind, pure, Except.pure]
  · exact Heap.get_set_eq _ _ (by simpa using ha.head_lt)
  · refine hb.chain.keep hfr (fun c hc => ?_)
    simp only [List.mem_cons, List.mem_singleton, List.not_mem_nil, or_false, not_or]
    exact ⟨fun e => hab (e ▸ hc), fun e => (List.nodup_cons.1 hb.nodup).1 (e ▸ hc)⟩
  · exact List.nodup_cons.2 ⟨hab, (List.nodup_cons.1 hb.nodup).2⟩
  · show ((h.set b.head_ _).set a.head_ _)[b.head_]? = _
    rw [Heap.get_set_ne _ _ (Ne.symm hne)]
    exact Heap.get_set_eq _ _ hb.head_lt
  · refine ha.chain.keep hfr (fun c hc => ?_)
    simp only [List.mem_cons, List.mem_singleton, List.not_mem_nil, or_false, not_or]
    exact ⟨fun e => (List.nodup_cons.1 ha.nodup).1 (e ▸ hc), fun e => hba (e ▸ hc)⟩
  · exact List.nodup_cons.2 ⟨hba, (List.nodup_cons.1 ha.nodup).2⟩

theorem assignTail_spec [Inhabited α] {h : Heap α} {this tmp rv : SingleLinkedList}
    {ras : List Nat} {rxs : List α} (fuel : Nat) (ht : Valid h this [] [])
    (hm : Valid h tmp [] []) (hr : Valid h rv ras rxs)
    (hnd : (this.head_ :: tmp.head_ :: rv.head_ :: ras).Nodup) (hf : rxs.length < fuel) :
    ∃ g bs, assignTail fuel h this tmp rv = .ok (g, ⟨this.head_, rxs.length⟩) ∧
      Valid g ⟨this.head_, rxs.length⟩ bs rxs.reverse ∧
      Frame h g (this.head_ :: tmp.head_ :: rv.head_ :: ras) ∧ ∀ b ∈ bs, h.length ≤ b := by
  have hn1 := List.nodup_cons.1 hnd
  have hn2 := List.nodup_cons.1 hn1.2
  have hlen := hr.chain.length_eq
  have htm : this.head_ ≠ tmp.head_ := fun e => hn1.1 (e ▸ List.mem_cons_self _ _)
  -- second loop: push `reversed` onto `tmp`
  obtain ⟨g1, bs, hp, hv1, hf1, hbs⟩ := pushRange_spec rxs fuel hr.chain hm
    (fun hmem => hn2.1 (List.mem_cons_of_mem _ hmem)) hf
  have hm0 : tmp.size_ = 0 := hm.size
  simp only [hm0, Nat.zero_add, List.append_nil] at hp hv1
  have ht1 : Valid g1 this [] [] := ht.carry hf1 (fun a ha => by
    simp only [List.mem_singleton] at ha ⊢
    rw [ha]; exact htm)
  have hr1 : Valid g1 rv ras rxs := hr.carry hf1 (fun a ha => by
    simp only [List.mem_singleton]
    rintro rfl
    exact hn2.1 ha)
  -- swap(tmp)
  obtain ⟨g2, hs, hvt, hvm, hf2, hl2⟩ := swap_spec ht1 hv1 htm
    (fun hmem => by
      have := hbs _ hmem
      have := ht.head_lt
      omega)
    (by simp)
  have ht0 : this.size_ = 0 := ht.size
  have hr2 : Valid g2 rv ras rxs := hr1.carry hf2 (fun a ha => by
    simp only [List.mem_cons, List.mem_singleton, List.not_mem_nil, or_false, not_or]
    exact ⟨fun e => hn1.1 (e ▸ List.mem_cons_of_mem _ ha), fun e => hn2.1 (e ▸ ha)⟩)
  -- destructor of `reversed`
  obtain ⟨g3, hd3, hf3, hl3⟩ := destroy_spec fuel hr2 (by omega)
  have hvm3 : Valid g3 ⟨tmp.head_, this.size_⟩ [] [] := hvm.carry hf3 (fun a ha => by
    simp only [List.mem_singleton] at ha
    rw [ha]
    exact hn2.1)
  -- destructor of `tmp`
  obtain ⟨g4, hd4, hf4, hl4⟩ := destroy_spec fuel hvm3 (by simp; omega)
  have hfresh : ∀ b ∈ this.head_ :: bs, b ∉ tmp.head_ :: rv.head_ :: ras := by
    intro b hb hb2
    rcases List.mem_cons.1 hb with rfl | hb
    · exact hn1.1 hb2
    · have h1 := hbs b hb
      have h2 := hm.head_lt
      have h3 := hr.head_lt
      have h4 := hr.chain.lt_length
      rcases List.mem_cons.1 hb2 with rfl | hb2
      · omega
      · rcases List.mem_cons.1 hb2 with rfl | hb2
        · omega
        · have := h4 b hb2
          omega
  have hvt3 : Valid g3 ⟨this.head_, rxs.length⟩ bs rxs.reverse :=
    hvt.carry hf3 (fun a ha hm2 => hfresh a ha (List.mem_cons_of_mem _ hm2))
  have hvt4 : Valid g4 ⟨this.head_, rxs.length⟩ bs rxs.reverse :=
    hvt3.carry hf4 (fun a ha hm2 => hfresh a ha (by
      simp only [List.mem_singleton] at hm2
      rw [hm2]
      exact List.mem_cons_self _ _))
  refine ⟨g4, bs, ?_, hvt4, ?_, hbs⟩
  · simp only [assignTail, hr.begin_eq, end_, hp, hs, hd3, hd4, bind, Except.bind, pure,
      Except.pure]
  · have e1 : Frame h g2 (this.head_ :: tmp.head_ :: rv.head_ :: ras) :=
      (hf1.mono (fun a ha _ => by
        simp only [List.mem_singleton] at ha
        simp [ha])).trans hf2 (fun a ha _ => by
        simp only [List.mem_cons, List.mem_singleton, List.not_mem_nil, or_false] at ha
        rcases ha with rfl | rfl <;> simp)
    have e2 : Frame h g3 (this.head_ :: tmp.head_ :: rv.head_ :: ras) :=
      e1.trans hf3 (fun a ha _ =>
        List.mem_cons_of_mem _ (List.mem_cons_of_mem _ ha))
    exact e2.trans hf4 (fun a ha _ => by
      simp only [List.mem_singleton] at ha
      simp [ha])

/-- Two fresh locals `tmp` and `reversed` next to a valid empty `this`. -/
theorem locals_spec [Inhabited α] {h : Heap α} {this : SingleLinkedList}
    (ht : Valid h this [] []) :
    Valid (init (init h).1).1 this [] [] ∧
    Valid (init (init h).1).1 (init h).2 [] [] ∧
    Valid (init (init h).1).1 (init (init h).1).2 [] [] ∧
    Frame h (init (init h).1).1 [] ∧
    (init h).2.head_ = h.length ∧ (init (init h).1).2.head_ = h.length + 1 ∧
    (init (init h).1).1.length = h.length + 2 := by
  obtain ⟨_, e1, v1, f1⟩ := init_spec h
  obtain ⟨_, e2, v2, f2⟩ := init_spec (init h).1
  have f12 : Frame h (init (init h).1).1 [] := f1.trans f2 (fun _ ha _ => ha)
  refine ⟨ht.carry f12 (by simp), v1.carry f2 (by simp), v2, f12, rfl, ?_, ?_⟩
  · show (init h).1.length = _
    rw [e1]; simp
  · rw [e2, e1]; simp

theorem AssignValues_spec [Inhabited α] {h : Heap α} {this : SingleLinkedList} (fuel : Nat)
    (vs : List α) (ht : Valid h this [] []) (hf : vs.length < fuel) :
    ∃ g bs, AssignValues fuel h this vs = .ok (g, ⟨this.head_, vs.length⟩) ∧
      Valid g ⟨this.head_, vs.length⟩ bs vs ∧ Frame h g [this.head_] ∧
      ∀ b ∈ bs, h.length ≤ b := by
  obtain ⟨lt, lm, lr, lf, em, er, el⟩ := locals_spec ht
  obtain ⟨g1, cs, hp, hv1, hf1, hcs⟩ := pushValues_spec vs lr
  have hr0 : (init (init h).1).2.size_ = 0 := lr.size
  simp only [hr0, Nat.zero_add, List.append_nil] at hp hv1
  have hthis := ht.head_lt
  have ht1 : Valid g1 this [] [] := lt.carry hf1 (fun a ha => by
    simp only [List.mem_singleton] at ha ⊢
    rw [ha, er]; omega)
  have hm1 : Valid g1 (init h).2 [] [] := lm.carry hf1 (fun a ha => by
    simp only [List.mem_singleton] at ha ⊢
    rw [ha, er, em]; omega)
  have hnd : (this.head_ :: (init h).2.head_ :: (init (init h).1).2.head_ :: cs).Nodup := by
    have hn := hv1.nodup
    simp only [er] at hn
    refine List.nodup_cons.2 ⟨?_, List.nodup_cons.2 ⟨?_, by rw [er]; exact hn⟩⟩
    · simp only [em, er, List.mem_cons, not_or]
      refine ⟨by omega, by omega, fun hm => ?_⟩
      have := hcs _ hm
      omega
    · simp only [em, er, List.mem_cons, not_or]
      refine ⟨by omega, fun hm => ?_⟩
      have := hcs _ hm
      omega
  obtain ⟨g, bs, ha, hvg, hfg, hbs⟩ :=
    @assignTail_spec α _ g1 this (init h).2 ⟨(init (init h).1).2.head_, vs.length⟩ cs
      vs.reverse fuel ht1 hm1 hv1 hnd (by simpa using hf)
  have hfl : h.length ≤ g1.length := Nat.le_trans lf.1 hf1.1
  refine ⟨g, bs, ?_, by simpa using hvg, ?_, fun b hb => Nat.le_trans hfl (hbs b hb)⟩
  · simp only [AssignValues, hp, bind, Except.bind]
    simpa using ha
  · have lf1 : Frame h (init (init h).1).1 [this.head_] := lf.mono (by simp)
    refine (lf1.trans hf1 (fun a ha hlt => ?_)).trans hfg (fun a ha hlt => ?_)
    · simp only [List.mem_singleton] at ha
      rw [ha, er] at hlt
      omega
    · simp only [List.mem_cons] at ha
      rcases ha with rfl | rfl | rfl | ha
      · exact List.mem_singleton_self _
      · rw [em] at hlt; omega
      · simp only [er] at hlt; omega
      · have := hcs _ ha
        rw [el] at this
        omega

theorem ofValues_spec [Inhabited α] (fuel : Nat) (h : Heap α) (vs : List α)
    (hf : vs.length < fuel) :
    ∃ g bs, ofValues fuel h vs = .ok (g, ⟨h.length, vs.length⟩) ∧
      Valid g ⟨h.length, vs.length⟩ bs vs ∧ Frame h g [] ∧ ∀ b ∈ bs, h.length < b := by
  obtain ⟨e1, e2, v1, f1⟩ := init_spec h
  obtain ⟨g, bs, ha, hv, hfg, hbs⟩ := AssignValues_spec fuel vs v1 hf
  rw [e1] at ha hv hfg
  refine ⟨g, bs, ha, hv, f1.trans hfg (fun a ha hlt => ?_), fun b hb => ?_⟩
  · simp only [List.mem_singleton] at ha
    omega
  · have := hbs b hb
    rw [e2] at this
    simp at this
    omega

theorem Assign_spec [Inhabited α] {h : Heap α} {this : SingleLinkedList} {sas : List Nat}
    {sxs : List α} (fuel : Nat) (ht : Valid h this [] []) (hc : Chain h sas sxs)
    (hf : sxs.length < fuel) :
    ∃ g bs, Assign fuel h this ⟨sas.head?⟩ ⟨none⟩ = .ok (g, ⟨this.head_, sxs.length⟩) ∧
      Valid g ⟨this.head_, sxs.length⟩ bs sxs ∧ Frame h g [this.head_] ∧
      ∀ b ∈ bs, h.length ≤ b := by
  obtain ⟨lt, lm, lr, lf, em, er, el⟩ := locals_spec ht
  have hc0 : Chain (init (init h).1).1 sas sxs := hc.keep lf (by simp)
  have hslt := hc.lt_length
  obtain ⟨g1, cs, hp, hv1, hf1, hcs⟩ := pushRange_spec sxs fuel hc0 lr
    (fun hm => by
      have := hslt _ hm
      rw [er] at this
      omega) hf
  have hr0 : (init (init h).1).2.size_ = 0 := lr.size
  simp only [hr0, Nat.zero_add, List.append_nil] at hp hv1
  have hthis := ht.head_lt
  have ht1 : Valid g1 this [] [] := lt.carry hf1 (fun a ha => by
    simp only [List.mem_singleton] at ha ⊢
    rw [ha, er]; omega)
  have hm1 : Valid g1 (init h).2 [] [] := lm.carry hf1 (fun a ha => by
    simp only [List.mem_singleton] at ha ⊢
    rw [ha, er, em]; omega)
  have hnd : (this.head_ :: (init h).2.head_ :: (init (init h).1).2.head_ :: cs).Nodup := by
    have hn := hv1.nodup
    simp only [er] at hn
    refine List.nodup_cons.2 ⟨?_, List.nodup_cons.2 ⟨?_, by rw [er]; exact hn⟩⟩
    · simp only [em, er, List.mem_cons, not_or]
      refine ⟨by omega, by omega, fun hm => ?_⟩
      have := hcs _ hm
      rw [el] at this
      omega
    · simp only [em, er, List.mem_cons, not_or]
      refine ⟨by omega, fun hm => ?_⟩
      have := hcs _ hm
      rw [el] at this
      omega
  obtain ⟨g, bs, ha, hvg, hfg, hbs⟩ :=
    @assignTail_spec α _ g1 this (init h).2 ⟨(init (init h).1).2.head_, sxs.length⟩ cs
      sxs.reverse fuel ht1 hm1 hv1 hnd (by simpa using hf)
  have hfl : h.length ≤ g1.length := Nat.le_trans lf.1 hf1.1
  refine ⟨g, bs, ?_, by simpa using hvg, ?_, fun b hb => Nat.le_trans hfl (hbs b hb)⟩
  · simp only [Assign, hp, bind, Except.bind]
    simpa using ha
  · have lf1 : Frame h (init (init h).1).1 [this.head_] := lf.mono (by simp)
    refine (lf1.trans hf1 (fun a ha hlt => ?_)).trans hfg (fun a ha hlt => ?_)
    · simp only [List.mem_singleton] at ha
      rw [ha, er] at hlt
      omega
    · simp only [List.mem_cons] at ha
      rcases ha with rfl | rfl | rfl | ha
      · exact List.mem_singleton_self _
      · rw [em] at hlt; omega
      · simp only [er] at hlt; omega
      · have := hcs _ ha
        rw [el] at this
        omega

theorem copy_spec [Inhabited α] {h : Heap α} {other : SingleLinkedList} {as : List Nat}
    {xs : List α} (fuel : Nat) (hv : Valid h other as xs) (hf : xs.length < fuel) :
    ∃ g bs, copy fuel h other = .ok (g, ⟨h.length, xs.length⟩) ∧
      Valid g ⟨h.length, xs.length⟩ bs xs ∧ Frame h g [] ∧ ∀ b ∈ bs, h.length < b := by
  obtain ⟨e1, e2, v1, f1⟩ := init_spec h
  have hvo : Valid (init h).1 other as xs := hv.carry f1 (by simp)
  obtain ⟨g, bs, ha, hvg, hfg, hbs⟩ := Assign_spec fuel v1 hvo.chain hf
  have hn : (init h).1.next (init h).2.head_ = .ok none := by
    obtain ⟨sv, hs⟩ := v1.head
    simpa using Heap.next_of_get hs
  rw [e1] at ha hvg hfg hn
  refine ⟨g, bs, ?_, hvg, f1.trans hfg (fun a ha hlt => ?_), fun b hb => ?_⟩
  · simp only [copy, hn, hvo.begin_eq, end_, e1, bind, Except.bind]
    simpa using ha
  · simp only [List.mem_singleton] at ha
    omega
  · have := hbs b hb
    rw [e2] at this
    simp at this
    omega

theorem traverseFrom_chain : ∀ (xs : List α) {as : List Nat} {h : Heap α} (fuel : Nat),
    Chain h as xs → xs.length < fuel → traverseFrom fuel h ⟨as.head?⟩ ⟨none⟩ = .ok xs
  | [], [], h, fuel, _, hf => by
    obtain ⟨f, rfl⟩ : ∃ f, fuel = f + 1 := ⟨fuel - 1, by simp at hf; omega⟩
    simp [traverseFrom, BasicIterator.ne, pure, Except.pure]
  | x :: xs, a :: as, h, fuel, hc, hf => by
    obtain ⟨f, rfl⟩ : ∃ f, fuel = f + 1 := ⟨fuel - 1, by simp at hf; omega⟩
    have ih := traverseFrom_chain xs f hc.2 (by simp at hf; omega)
    have hb : (!(some a == (none : Option Nat))) = true := by simp
    simp only [traverseFrom, List.head?_cons, BasicIterator.ne, bne, hc.deref_head,
      hc.incr_head, bind, Except.bind]
    rw [if_pos hb, ih]
    rfl
  | [], _ :: _, _, _, hc, _ => by simp [Chain] at hc
  | _ :: _, [], _, _, hc, _ => by simp [Chain] at hc

theorem Valid.traverse_eq {h : Heap α} {l : SingleLinkedList} {as : List Nat} {xs : List α}
    (hv : Valid h l as xs) (fuel : Nat) (hf : xs.length < fuel) :
    traverse fuel h l = .ok xs := by
  simp only [traverse, hv.begin_eq, end_, bind, Except.bind]
  exact traverseFrom_chain xs fuel hv.chain hf

/-! ## Position-relative insertion and removal -/

/-- A valid list is one chain that starts at the sentinel. -/
theorem Valid.full_chain {h : Heap α} {l : SingleLinkedList} {as : List Nat} {xs : List α}
    (hv : Valid h l as xs) : ∃ sv, Chain h (l.head_ :: as) (sv :: xs) := by
  obtain ⟨sv, hs⟩ := hv.head
  exact ⟨sv, hs, hv.chain⟩

theorem Chain.get_of_index {h : Heap α} : ∀ (k : Nat) {cs : List Nat} {ws : List α} {p : Nat},
    Chain h cs ws → cs[k]? = some p → ∃ w, ws[k]? = some w ∧ h[p]? = some (some ⟨w, cs[k + 1]?⟩)
  | _, [], _, _, _, hk => by simp at hk
  | _, _ :: _, [], _, hc, _ => by simp [Chain] at hc
  | 0, c :: cs, w :: ws, p, hc, hk => by
    simp only [List.getElem?_cons_zero, Option.some.injEq] at hk
    subst hk
    refine ⟨w, by simp, ?_⟩
    rw [hc.1]
    cases cs <;> simp
  | k + 1, c :: cs, w :: ws, p, hc, hk => by
    simp only [List.getElem?_cons_succ] at hk ⊢
    exact Chain.get_of_index k hc.2 hk

theorem Chain.insert_after {h : Heap α} {p : Nat} {pv v : α} {nx : Option Nat} :
    ∀ (k : Nat) {cs : List Nat} {ws : List α}, Chain h cs ws → cs.Nodup → cs[k]? = some p →
    h[p]? = some (some ⟨pv, nx⟩) →
    Chain ((h ++ [some (Node.mk v nx)]).set p (some (Node.mk pv (some h.length))))
      (cs.take (k + 1) ++ h.length :: cs.drop (k + 1))
      (ws.take (k + 1) ++ v :: ws.drop (k + 1))
  | _, [], _, _, _, hk, _ => by simp at hk
  | _, _ :: _, [], hc, _, _, _ => by simp [Chain] at hc
  | 0, c :: cs, w :: ws, hc, hnd, hk, hp => by
    simp only [List.getElem?_cons_zero, Option.some.injEq] at hk
    subst hk
    have hnd1 := List.nodup_cons.1 hnd
    have hclt : c < h.length := Heap.lt_of_get hp
    rw [hc.1] at hp
    simp only [Option.some.injEq, Node.mk.injEq] at hp
    obtain ⟨rfl, rfl⟩ := hp
    have hfr : Frame h ((h ++ [some (Node.mk v cs.head?)]).set c
        (some (Node.mk w (some h.length)))) [c] :=
      (Frame.append h _ [c]).trans (Frame.set _ (List.mem_singleton_self _)) (fun _ ha _ => ha)
    simp only [Nat.zero_add, List.take_succ_cons, List.take_zero, List.drop_succ_cons,
      List.drop_zero, List.cons_append, List.nil_append]
    refine ⟨?_, ?_, hc.2.keep hfr (fun a ha => ?_)⟩
    · have hl : c < (h ++ [some (Node.mk v cs.head?)]).length := by
        simp only [List.length_append, List.length_singleton]
        omega
      exact Heap.get_set_eq _ _ hl
    · rw [Heap.get_set_ne _ _ (Nat.ne_of_gt hclt)]
      exact Heap.get_append_len h _
    · simp only [List.mem_singleton]
      rintro rfl
      exact hnd1.1 ha
  | k + 1, c :: cs, w :: ws, hc, hnd, hk, hp => by
    simp only [List.getElem?_cons_succ] at hk
    have hnd1 := List.nodup_cons.1 hnd
    have ih := Chain.insert_after (v := v) k hc.2 hnd1.2 hk hp
    have hpm : p ∈ cs := List.getElem?_mem hk
    have hcp : c ≠ p := fun e => hnd1.1 (e ▸ hpm)
    have hclt : c < h.length := Heap.lt_of_get hc.1
    simp only [List.take_succ_cons, List.drop_succ_cons, List.cons_append]
    refine ⟨?_, ih⟩
    rw [Heap.get_set_ne _ _ hcp, Heap.get_append_lt h _ hclt, hc.1]
    cases cs with
    | nil => simp at hk
    | cons d ds => simp

theorem Chain.erase_after {h : Heap α} {p s : Nat} {pv sv : α} {pnx snx : Option Nat} :
    ∀ (k : Nat) {cs : List Nat} {ws : List α}, Chain h cs ws → cs.Nodup → cs[k]? = some p →
    cs[k + 1]? = some s → h[p]? = some (some ⟨pv, pnx⟩) → h[s]? = some (some ⟨sv, snx⟩) →
    Chain ((h.set s none).set p (some (Node.mk pv snx)))
      (cs.eraseIdx (k + 1)) (ws.eraseIdx (k + 1))
  | _, [], _, _, _, hk, _, _, _ => by simp at hk
  | _, _ :: _, [], hc, _, _, _, _, _ => by simp [Chain] at hc
  | 0, [_], _ :: _, _, _, _, hk1, _, _ => by simp at hk1
  | 0, _ :: _ :: _, [_], hc, _, _, _, _, _ => by simp [Chain] at hc
  | 0, c :: d :: cs, w :: w2 :: ws, hc, hnd, hk, hk1, hp, hs => by
    simp only [List.getElem?_cons_zero, Option.some.injEq, Nat.zero_add,
      List.getElem?_cons_succ] at hk hk1
    subst hk
    subst hk1
    have hnd1 := List.nodup_cons.1 hnd
    have hnd2 := List.nodup_cons.1 hnd1.2
    have hclt : c < h.length := Heap.lt_of_get hp
    rw [hc.1] at hp
    rw [hc.2.1] at hs
    simp only [Option.some.injEq, Node.mk.injEq] at hp hs
    obtain ⟨rfl, _⟩ := hp
    obtain ⟨rfl, rfl⟩ := hs
    simp only [Nat.zero_add, List.eraseIdx_cons_succ, List.eraseIdx_cons_zero]
    refine ⟨Heap.get_set_eq _ _ (by simpa using hclt), hc.2.2.congr (fun a ha => ?_)⟩
    have hac : a ≠ c := fun e => hnd1.1 (e ▸ List.mem_cons_of_mem _ ha)
    have had : a ≠ d := fun e => hnd2.1 (e ▸ ha)
    rw [Heap.get_set_ne _ _ hac, Heap.get_set_ne _ _ had]
  | k + 1, c :: cs, w :: ws, hc, hnd, hk, hk1, hp, hs => by
    simp only [List.getElem?_cons_succ] at hk hk1
    have hnd1 := List.nodup_cons.1 hnd
    have ih := Chain.erase_after k hc.2 hnd1.2 hk hk1 hp hs
    have hcp : c ≠ p := fun e => hnd1.1 (e ▸ List.getElem?_mem hk)
    have hcs : c ≠ s := fun e => hnd1.1 (e ▸ List.getElem?_mem hk1)
    simp only [List.eraseIdx_cons_succ]
    refine ⟨?_, ih⟩
    rw [Heap.get_set_ne _ _ hcp, Heap.get_set_ne _ _ hcs, hc.1]
    cases cs with
    | nil => simp at hk
    | cons d ds => simp

theorem InsertAfter_spec {h : Heap α} {l : SingleLinkedList} {as : List Nat} {xs : List α}
    {k p : Nat} (v : α) (hv : Valid h l as xs) (hk : (l.head_ :: as)[k]? = some p) :
    ∃ g, InsertAfter h l ⟨some p⟩ v = .ok (g, ⟨l.head_, l.size_ + 1⟩, ⟨some h.length⟩) ∧
      Valid g ⟨l.head_, l.size_ + 1⟩ (as.take k ++ h.length :: as.drop k)
        (xs.take k ++ v :: xs.drop k) ∧
      g[h.length]? = some (some ⟨v, as[k]?⟩) ∧ (∃ w, g[p]? = some (some ⟨w, some h.length⟩)) ∧
      Frame h g [p] ∧ g.length = h.length + 1 := by
  obtain ⟨sv, hfull⟩ := hv.full_chain
  obtain ⟨w, _, hp⟩ := Chain.get_of_index k hfull hk
  have hins := Chain.insert_after (v := v) k hfull hv.nodup hk hp
  simp only [List.getElem?_cons_succ] at hp
  simp only [List.take_succ_cons, List.drop_succ_cons, List.cons_append,
    List.getElem?_cons_succ] at hins
  have hplt : p < h.length := Heap.lt_of_get hp
  have hklen : k < (l.head_ :: as).length := by
    by_contra hcon
    rw [List.getElem?_eq_none (Nat.le_of_not_lt hcon)] at hk
    simp at hk
  have hlen := hv.chain.length_eq
  have hp1 : (h ++ [some (Node.mk v as[k]?)])[p]? = some (some ⟨w, as[k]?⟩) := by
    rw [Heap.get_append_lt h _ hplt]; exact hp
  have hl : p < (h ++ [some (Node.mk v as[k]?)]).length := by
    simp only [List.length_append, List.length_singleton]
    omega
  have hp2 : ((h ++ [some (Node.mk v as[k]?)]).set p (some (Node.mk w (some h.length))))[p]? =
      some (some ⟨w, some h.length⟩) := Heap.get_set_eq _ _ hl
  refine ⟨(h ++ [some (Node.mk v as[k]?)]).set p (some (Node.mk w (some h.length))),
    ?_, ⟨⟨sv, hins.1⟩, hins.2, ?_, ?_⟩, ?_, ⟨w, hp2⟩, ?_, by simp⟩
  · simp only [InsertAfter, Heap.next_of_get hp, Heap.new, Heap.setNext_of_get _ hp1,
      Heap.next_of_get hp2, bind, Except.bind, pure, Except.pure]
  · have hperm : (l.head_ :: (as.take k ++ h.length :: as.drop k)).Perm
        (h.length :: l.head_ :: as) := by
      refine (List.Perm.cons _ List.perm_middle).trans ?_
      rw [List.take_append_drop]
      exact List.Perm.swap _ _ _
    refine hperm.symm.nodup (List.nodup_cons.2 ⟨fun hm => ?_, hv.nodup⟩)
    rcases List.mem_cons.1 hm with e | hm
    · have := hv.head_lt
      omega
    · exact Nat.lt_irrefl _ (hv.chain.lt_length _ hm)
  · simp only [List.length_append, List.length_take, List.length_cons, List.length_drop,
      hv.size]
    simp only [List.length_cons] at hklen
    omega
  · rw [Heap.get_set_ne _ _ (Nat.ne_of_gt hplt)]
    exact Heap.get_append_len h _
  · exact (Frame.append h _ [p]).trans (Frame.set _ (List.mem_singleton_self _))
      (fun _ ha _ => ha)

theorem EraseAfter_spec {h : Heap α} {l : SingleLinkedList} {as : List Nat} {xs : List α}
    {k p : Nat} (hv : Valid h l as xs) (hk : (l.head_ :: as)[k]? = some p)
    (hlt : k < as.length) :
    ∃ g, EraseAfter h l ⟨some p⟩ = .ok (g, ⟨l.head_, l.size_ - 1⟩, ⟨as[k + 1]?⟩) ∧
      Valid g ⟨l.head_, l.size_ - 1⟩ (as.eraseIdx k) (xs.eraseIdx k) ∧
      (∃ w, g[p]? = some (some ⟨w, as[k + 1]?⟩)) ∧ Frame h g (p :: as) ∧
      g.length = h.length := by
  obtain ⟨sv, hfull⟩ := hv.full_chain
  have hk1 : (l.head_ :: as)[k + 1]? = some as[k] := by
    simp [List.getElem?_eq_getElem hlt]
  obtain ⟨w, _, hp⟩ := Chain.get_of_index k hfull hk
  obtain ⟨w2, _, hs⟩ := Chain.get_of_index (k + 1) hfull hk1
  have her := Chain.erase_after k hfull hv.nodup hk hk1 hp hs
  simp only [List.getElem?_cons_succ, List.eraseIdx_cons_succ] at hp hs her
  have hlen := hv.chain.length_eq
  have hps : p ≠ as[k] := by
    intro e
    have hne := (List.nodup_iff_getElem?_ne_getElem?.1 hv.nodup) k (k + 1) (Nat.lt_succ_self _)
      (by simp only [List.length_cons]; omega)
    rw [hk, hk1, e] at hne
    exact hne rfl
  have hne : l.IsEmpty = false := by
    simp only [SingleLinkedList.IsEmpty, hv.size, beq_eq_false_iff_ne, ne_eq]
    omega
  have hp1 : (h.set as[k] none)[p]? = some (some ⟨w, as[k]?⟩) := by
    rw [Heap.get_set_ne _ _ hps]; exact hp
  have hasm : as[k] ∈ as := List.getElem_mem hlt
  refine ⟨(h.set as[k] none).set p (some (Node.mk w as[k + 1]?)), ?_,
    ⟨⟨sv, her.1⟩, her.2, ?_, ?_⟩,
    ⟨w, Heap.get_set_eq _ _ (by simpa using Heap.lt_of_get hp)⟩, ?_, by simp⟩
  · simp only [EraseAfter, hne, Heap.next_of_get hp, List.getElem?_eq_getElem hlt,
      Heap.next_of_get hs, Heap.delete, Heap.setNext_of_get _ hp1, bind, Except.bind, pure,
      Except.pure, Bool.false_eq_true, ↓reduceIte]
  · have := hv.nodup.eraseIdx (k + 1)
    simpa only [List.eraseIdx_cons_succ] using this
  · rw [List.length_eraseIdx_of_lt (by omega), hv.size]
  · exact (Frame.set (h := h) none (List.mem_cons_of_mem _ hasm)).trans
      (Frame.set _ (List.mem_cons_self _ _)) (fun _ ha _ => ha)

/-! ## Relational operators -/

theorem std_equal_chain [DecidableEq α] : ∀ (xs : List α) {ys : List α} {as bs : List Nat}
    {h : Heap α} (fuel : Nat), Chain h as xs → Chain h bs ys → xs.length ≤ ys.length →
    xs.length < fuel →
    std_equal fuel h ⟨as.head?⟩ ⟨none⟩ ⟨bs.head?⟩ = .ok (decide (xs = ys.take xs.length))
  | [], _, [], _, _, fuel, _, _, _, hf => by
    obtain ⟨f, rfl⟩ : ∃ f, fuel = f + 1 := ⟨fuel - 1, by simp at hf; omega⟩
    simp [std_equal, BasicIterator.ne, pure, Except.pure]
  | [], _, _ :: _, _, _, _, hc, _, _, _ => by simp [Chain] at hc
  | _ :: _, _, [], _, _, _, hc, _, _, _ => by simp [Chain] at hc
  | _ :: _, [], _, _, _, _, _, _, hle, _ => by simp at hle
  | _ :: _, _ :: _, _ :: _, [], _, _, _, hd, _, _ => by simp [Chain] at hd
  | x :: xs, y :: ys, a :: as, b :: bs, h, fuel, hc, hd, hle, hf => by
    obtain ⟨f, rfl⟩ : ∃ f, fuel = f + 1 := ⟨fuel - 1, by simp at hf; omega⟩
    have ih := std_equal_chain xs f hc.2 hd.2 (by simp at hle; omega) (by simp at hf; omega)
    have hb : (!(some a == (none : Option Nat))) = true := by simp
    simp only [std_equal, List.head?_cons, BasicIterator.ne, bne, hc.deref_head, hd.deref_head,
      hc.incr_head, hd.incr_head, bind, Except.bind]
    rw [if_pos hb, ih]
    by_cases hxy : x = y
    · subst hxy
      simp
    · simp [hxy, pure, Except.pure]

theorem lex_chain [LT α] [DecidableRel (fun (a b : α) => a < b)] : ∀ (xs : List α)
    {ys : List α} {as bs : List Nat} {h : Heap α} (fuel : Nat), Chain h as xs → Chain h bs ys →
    xs.length < fuel →
    std_lexicographical_compare fuel h ⟨as.head?⟩ ⟨none⟩ ⟨bs.head?⟩ ⟨none⟩ =
      .ok (lexCompare xs ys)
  | [], _ :: _, _, [], _, _, _, hd, _ => by simp [Chain] at hd
  | [], [], _, _ :: _, _, _, _, hd, _ => by simp [Chain] at hd
  | [], _, _ :: _, _, _, _, hc, _, _ => by simp [Chain] at hc
  | _ :: _, _, [], _, _, _, hc, _, _ => by simp [Chain] at hc
  | _ :: _, _ :: _, _ :: _, [], _, _, _, hd, _ => by simp [Chain] at hd
  | _ :: _, [], _ :: _, _ :: _, _, _, _, hd, _ => by simp [Chain] at hd
  | [], [], [], [], h, fuel, _, _, hf => by
    obtain ⟨f, rfl⟩ : ∃ f, fuel = f + 1 := ⟨fuel - 1, by simp at hf; omega⟩
    simp [std_lexicographical_compare, lexCompare, BasicIterator.ne, BasicIterator.eq, pure,
      Except.pure]
  | [], y :: ys, [], b :: bs, h, fuel, _, _, hf => by
    obtain ⟨f, rfl⟩ : ∃ f, fuel = f + 1 := ⟨fuel - 1, by simp at hf; omega⟩
    simp [std_lexicographical_compare, lexCompare, BasicIterator.ne, BasicIterator.eq, pure,
      Except.pure]
  | x :: xs, [], a :: as, [], h, fuel, _, _, hf => by
    obtain ⟨f, rfl⟩ : ∃ f, fuel = f + 1 := ⟨fuel - 1, by simp at hf; omega⟩
    simp [std_lexicographical_compare, lexCompare, BasicIterator.ne, BasicIterator.eq, pure,
      Except.pure]
  | x :: xs, y :: ys, a :: as, b :: bs, h, fuel, hc, hd, hf => by
    obtain ⟨f, rfl⟩ : ∃ f, fuel = f + 1 := ⟨fuel - 1, by simp at hf; omega⟩
    have ih := lex_chain xs f hc.2 hd.2 (by simp at hf; omega)
    have hb : ((!(some a == (none : Option Nat))) && (!(some b == (none : Option Nat)))) = true := by
      simp
    simp only [std_lexicographical_compare, List.head?_cons, BasicIterator.ne, bne,
      hc.deref_head, hd.deref_head, hc.incr_head, hd.incr_head, bind, Except.bind, lexCompare]
    rw [if_pos hb, ih]
    by_cases h1 : x < y
    · simp [h1, pure, Except.pure]
    · by_cases h2 : y < x
      · simp [h1, h2, pure, Except.pure]
      · simp [h1, h2]

theorem LexLess.nil_iff [LT α] (ys : List α) : LexLess [] ys ↔ ys ≠ [] := by
  constructor
  · rintro ⟨i, hi, _⟩ rfl
    simp at hi
  · intro hne
    exact ⟨0, List.length_pos.2 hne, by simp, Or.inl rfl⟩

theorem LexLess.not_nil [LT α] (xs : List α) : ¬ LexLess xs [] := by
  rintro ⟨i, hi, _⟩
  simp at hi

theorem LexLess.cons_iff [LT α] (x y : α) (xs ys : List α) :
    LexLess (x :: xs) (y :: ys) ↔ x < y ∨ (x = y ∧ LexLess xs ys) := by
  constructor
  · rintro ⟨i, hi, ht, hcase⟩
    cases i with
    | zero =>
      rcases hcase with hl | ⟨a, b, ha, hb, hab⟩
      · simp at hl
      · simp only [List.getElem?_cons_zero, Option.some.injEq] at ha hb
        subst ha
        subst hb
        exact Or.inl hab
    | succ i =>
      simp only [List.take_succ_cons, List.cons.injEq] at ht
      refine Or.inr ⟨ht.1, i, by simpa using hi, ht.2, ?_⟩
      rcases hcase with hl | ⟨a, b, ha, hb, hab⟩
      · exact Or.inl (by simpa using hl)
      · exact Or.inr ⟨a, b, by simpa using ha, by simpa using hb, hab⟩
  · rintro (hlt | ⟨rfl, i, hi, ht, hcase⟩)
    · exact ⟨0, by simp, by simp, Or.inr ⟨x, y, by simp, by simp, hlt⟩⟩
    · refine ⟨i + 1, by simpa using hi, by simp [ht], ?_⟩
      rcases hcase with hl | ⟨a, b, ha, hb, hab⟩
      · exact Or.inl (by simpa using hl)
      · exact Or.inr ⟨a, b, by simpa using ha, by simpa using hb, hab⟩

theorem lexCompare_iff [LinearOrder α] : ∀ (xs ys : List α),
    lexCompare xs ys = true ↔ LexLess xs ys
  | [], [] => by simp [lexCompare, LexLess.nil_iff]
  | [], _ :: _ => by simp [lexCompare, LexLess.nil_iff]
  | _ :: _, [] => by simp [lexCompare, LexLess.not_nil]
  | x :: xs, y :: ys => by
    rw [LexLess.cons_iff, ← lexCompare_iff xs ys]
    rcases lt_trichotomy x y with h1 | h1 | h1
    · simp [lexCompare, h1]
    · subst h1
      simp [lexCompare]
    · have h2 : ¬ x < y := not_lt_of_gt h1
      have h3 : x ≠ y := ne_of_gt h1
      simp [lexCompare, h1, h2, h3]

theorem LexLess.irrefl [LinearOrder α] : ∀ (xs : List α), ¬ LexLess xs xs
  | [] => LexLess.not_nil []
  | x :: xs => by
    rw [LexLess.cons_iff]
    rintro (hlt | ⟨_, hrec⟩)
    · exact lt_irrefl x hlt
    · exact LexLess.irrefl xs hrec

/-! ## Front removal and clearing -/

theorem PopFront_empty {h : Heap α} {l : SingleLinkedList} {as : List Nat}
    (hv : Valid h l as []) : PopFront h l = .error .assertion := by
  have hs : l.size_ = 0 := hv.size
  simp [PopFront, SingleLinkedList.IsEmpty, hs]

theorem PopFront_spec {h : Heap α} {l : SingleLinkedList} {a : Nat} {as : List Nat} {x : α}
    {xs : List α} (hv : Valid h l (a :: as) (x :: xs)) :
    ∃ g, PopFront h l = .ok (g, ⟨l.head_, l.size_ - 1⟩) ∧
      Valid g ⟨l.head_, l.size_ - 1⟩ as xs ∧ Frame h g [l.head_, a] ∧
      g.length = h.length := by
  obtain ⟨sv, hfull⟩ := hv.full_chain
  have hs : h[l.head_]? = some (some ⟨sv, some a⟩) := hfull.1
  have ha : h[a]? = some (some ⟨x, as.head?⟩) := hfull.2.1
  have her := Chain.erase_after 0 hfull hv.nodup (by simp) (by simp) hs ha
  simp only [Nat.zero_add, List.eraseIdx_cons_succ, List.eraseIdx_cons_zero] at her
  have hnd := List.nodup_cons.1 hv.nodup
  have hne : l.head_ ≠ a := fun e => hnd.1 (e ▸ List.mem_cons_self _ _)
  have hemp : l.IsEmpty = false := by
    simp [SingleLinkedList.IsEmpty, hv.size]
  have hs1 : (h.set a none)[l.head_]? = some (some ⟨sv, some a⟩) := by
    rw [Heap.get_set_ne _ _ hne]; exact hs
  refine ⟨(h.set a none).set l.head_ (some (Node.mk sv as.head?)), ?_,
    ⟨⟨sv, her.1⟩, her.2, ?_, ?_⟩, ?_, by simp⟩
  · simp only [PopFront, hemp, Heap.next_of_get hs, Heap.next_of_get ha, Heap.delete,
      Heap.setNext_of_get _ hs1, bind, Except.bind, pure, Except.pure, Bool.false_eq_true,
      ↓reduceIte]
  · exact List.nodup_cons.2
      ⟨fun hm => hnd.1 (List.mem_cons_of_mem _ hm), (List.nodup_cons.1 hnd.2).2⟩
  · simp [hv.size]
  · exact (Frame.set (h := h) none (List.mem_cons_of_mem _ (List.mem_singleton_self _))).trans
      (Frame.set _ (List.mem_cons_self _ _)) (fun _ hb _ => hb)

theorem Clear_spec {h : Heap α} {l : SingleLinkedList} {as : List Nat} {xs : List α}
    (fuel : Nat) (hv : Valid h l as xs) (hf : as.length < fuel) :
    ∃ g, Clear fuel h l = .ok (g, ⟨l.head_, 0⟩) ∧ Valid g ⟨l.head_, 0⟩ [] [] ∧
      Frame h g (l.head_ :: as) ∧ g.length = h.length := by
  obtain ⟨v, hs⟩ := hv.head
  obtain ⟨g, hg, hgs, hfg, hlen⟩ := clearLoop_spec as fuel hs hv.chain hv.nodup hf
  refine ⟨g, ?_, ⟨⟨v, hgs⟩, trivial, by simp, rfl⟩, hfg, hlen⟩
  simp [Clear, hg, bind, Except.bind, pure, Except.pure]

theorem Clear_empty {h : Heap α} {l : SingleLinkedList} (fuel : Nat)
    (hv : Valid h l [] []) (hf : 0 < fuel) : Clear fuel h l = .ok (h, l) := by
  obtain ⟨v, hs⟩ := hv.head
  obtain ⟨f, rfl⟩ : ∃ f, fuel = f + 1 := ⟨fuel - 1, by omega⟩
  have hz : l.size_ = 0 := hv.size
  have hl : ({ l with size_ := 0 } : SingleLinkedList) = l := by
    cases l
    simp only [SingleLinkedList.mk.injEq, true_and]
    exact hz.symm
  simp only [Clear, clearLoop, Heap.next_of_get hs, List.head?_nil, bind, Except.bind, pure,
    Except.pure, hl]

/-! ## Sequences of front operations -/

theorem runFrontOps_spec : ∀ (ops : List (FrontOp α)) {h : Heap α} {l : SingleLinkedList}
    {as : List Nat} {xs : List α}, Valid h l as xs → PopsGuarded xs.length ops →
    ∃ g l' as' xs', runFrontOps h l ops = .ok (g, l') ∧ Valid g l' as' xs' ∧
      xs'.length + popCount ops = xs.length + pushCount ops ∧
      (popCount ops = 0 → xs' = (pushedValues ops).reverse ++ xs)
  | [], h, l, as, xs, hv, _ =>
    ⟨h, l, as, xs, rfl, hv, rfl, fun _ => by simp [pushedValues]⟩
  | .push v :: ops, h, l, as, xs, hv, hg => by
    obtain ⟨g, hp, hvg, _, _⟩ := PushFront_spec hv v
    obtain ⟨k, l', as', xs', hr, hvk, hcount, hval⟩ := runFrontOps_spec ops hvg hg
    refine ⟨k, l', as', xs', ?_, hvk, ?_, fun hz => ?_⟩
    · simp only [runFrontOps, hp, bind, Except.bind]
      exact hr
    · simp only [popCount, pushCount, List.length_cons] at hcount ⊢
      omega
    · rw [hval hz]
      simp [pushedValues]
  | .pop :: ops, h, l, as, xs, hv, hg => by
    obtain ⟨hpos, hg2⟩ := hg
    have hlen := hv.chain.length_eq
    match as, xs, hv, hpos, hg2, hlen with
    | a :: as, x :: xs, hv, _, hg2, _ =>
      obtain ⟨g, hp, hvg, _, _⟩ := PopFront_spec hv
      obtain ⟨k, l', as', xs', hr, hvk, hcount, _⟩ :=
        runFrontOps_spec ops hvg (by simpa using hg2)
      refine ⟨k, l', as', xs', ?_, hvk, ?_, fun hz => ?_⟩
      · simp only [runFrontOps, hp, bind, Except.bind]
        exact hr
      · simp only [popCount, pushCount, List.length_cons] at hcount ⊢
        omega
      · simp [popCount] at hz
    | [], [], _, hpos, _, _ => simp at hpos
    | [], _ :: _, _, _, _, hlen => simp at hlen
    | _ :: _, [], _, _, _, hlen => simp at hlen

/-! ## Iterator steps -/

theorem advance_chain {h : Heap α} : ∀ (k : Nat) {as : List Nat} {xs : List α},
    Chain h as xs → k ≤ as.length → advance k h ⟨as.head?⟩ = .ok ⟨as[k]?⟩
  | 0, as, _, _, _ => by
    cases as <;> simp [advance, pure, Except.pure]
  | k + 1, [], _, _, hk => by simp at hk
  | _ + 1, _ :: _, [], hc, _ => by simp [Chain] at hc
  | k + 1, a :: as, x :: xs, hc, hk => by
    have ih := advance_chain k hc.2 (by simpa using hk)
    simp only [advance, List.head?_cons, hc.incr_head, bind, Except.bind,
      List.getElem?_cons_succ]
    exact ih

theorem Chain.deref_index {h : Heap α} {as : List Nat} {xs : List α} (hc : Chain h as xs)
    (k : Nat) (hk : k < xs.length) :
    BasicIterator.deref h ⟨as[k]?⟩ = .ok xs[k] := by
  have hlen := hc.length_eq
  have hka : k < as.length := by omega
  obtain ⟨w, hw, hp⟩ := Chain.get_of_index k hc (List.getElem?_eq_getElem hka)
  rw [List.getElem?_eq_getElem hk] at hw
  simp only [Option.some.injEq] at hw
  subst hw
  simp [BasicIterator.deref, List.getElem?_eq_getElem hka, Heap.load_of_get hp]

/-! ## Reachable nodes and the size invariant -/

theorem Heap.next_ok {h : Heap α} {p : Nat} {nx : Option Nat} (hn : h.next p = .ok nx) :
    ∃ n, h[p]? = some (some n) ∧ n.next_node = nx := by
  unfold Heap.next Heap.load at hn
  match hc : h[p]? with
  | some (some n) =>
    rw [hc] at hn
    simp only [Except.ok.injEq] at hn
    exact ⟨n, rfl, hn⟩
  | some none =>
    rw [hc] at hn
    simp at hn
  | none =>
    rw [hc] at hn
    simp at hn

theorem Chain.nodesFrom_eq {h : Heap α} : ∀ {as : List Nat} {xs : List α} (fuel : Nat),
    Chain h as xs → as.length < fuel → nodesFrom fuel h as.head? = .ok as
  | [], [], fuel, _, hf => by
    obtain ⟨f, rfl⟩ : ∃ f, fuel = f + 1 := ⟨fuel - 1, by simp at hf; omega⟩
    simp [nodesFrom, pure, Except.pure]
  | a :: as, x :: xs, fuel, hc, hf => by
    obtain ⟨f, rfl⟩ : ∃ f, fuel = f + 1 := ⟨fuel - 1, by simp at hf; omega⟩
    have ih := Chain.nodesFrom_eq f hc.2 (by simp at hf; omega)
    simp only [List.head?_cons, nodesFrom, Heap.next_of_get hc.1, ih, bind, Except.bind, pure,
      Except.pure]
  | [], _ :: _, _, hc, _ => by simp [Chain] at hc
  | _ :: _, [], _, hc, _ => by simp [Chain] at hc

theorem nodesFrom_chain {h : Heap α} : ∀ (fuel : Nat) {p : Option Nat} {ns : List Nat},
    nodesFrom fuel h p = .ok ns → ∃ xs, Chain h ns xs ∧ p = ns.head?
  | 0, _, _, hn => by simp [nodesFrom] at hn
  | _ + 1, none, ns, hn => by
    simp only [nodesFrom, pure, Except.pure, Except.ok.injEq] at hn
    subst hn
    exact ⟨[], trivial, rfl⟩
  | fuel + 1, some a, ns, hn => by
    simp only [nodesFrom, bind, Except.bind] at hn
    match hx : h.next a with
    | .error e =>
      rw [hx] at hn
      simp at hn
    | .ok nx =>
      rw [hx] at hn
      simp only at hn
      match hr : nodesFrom fuel h nx with
      | .error e =>
        rw [hr] at hn
        simp at hn
      | .ok rest =>
        rw [hr] at hn
        simp only [pure, Except.pure, Except.ok.injEq] at hn
        subst hn
        obtain ⟨n, hcell, hnx⟩ := Heap.next_ok hx
        obtain ⟨xs, hc, hp⟩ := nodesFrom_chain fuel hr
        refine ⟨n.value :: xs, ⟨?_, hc⟩, rfl⟩
        rw [hcell, ← hp, ← hnx]

theorem Chain.suffix {h : Heap α} : ∀ (l1 : List Nat) {l2 : List Nat} {xs : List α},
    Chain h (l1 ++ l2) xs → Chain h l2 (xs.drop l1.length)
  | [], _, _, hc => by simpa using hc
  | _ :: _, _, [], hc => by simp [Chain] at hc
  | _ :: l1, _, _ :: _, hc => by
    simpa using Chain.suffix l1 hc.2

theorem Chain.same_nodes {h : Heap α} : ∀ {as bs : List Nat} {xs ys : List α},
    Chain h as xs → Chain h bs ys → as.head? = bs.head? → as = bs
  | [], [], _, _, _, _, _ => rfl
  | [], _ :: _, _, _, _, _, he => by simp at he
  | _ :: _, [], _, _, _, _, he => by simp at he
  | _ :: _, _ :: _, [], _, hc, _, _ => by simp [Chain] at hc
  | _ :: _, _ :: _, _ :: _, [], _, hd, _ => by simp [Chain] at hd
  | a :: as, b :: bs, x :: xs, y :: ys, hc, hd, he => by
    simp only [List.head?_cons, Option.some.injEq] at he
    subst he
    have h1 := hc.1
    rw [hd.1] at h1
    simp only [Option.some.injEq, Node.mk.injEq] at h1
    rw [Chain.same_nodes hc.2 hd.2 h1.2.symm]

theorem Chain.nodup {h : Heap α} : ∀ {as : List Nat} {xs : List α}, Chain h as xs → as.Nodup
  | [], _, _ => List.nodup_nil
  | _ :: _, [], hc => by simp [Chain] at hc
  | a :: as, x :: xs, hc => by
    refine List.nodup_cons.2 ⟨fun hm => ?_, Chain.nodup hc.2⟩
    obtain ⟨l1, l2, hsplit⟩ := List.append_of_mem hm
    have hsuf : Chain h (a :: l2) (xs.drop l1.length) := by
      apply Chain.suffix l1
      rw [← hsplit]
      exact hc.2
    have heq := Chain.same_nodes hsuf hc rfl
    have hlen : (a :: l2).length = (a :: as).length := by rw [heq]
    rw [hsplit] at hlen
    simp at hlen
    omega

theorem Valid.nodes_eq {h : Heap α} {l : SingleLinkedList} {as : List Nat} {xs : List α}
    (hv : Valid h l as xs) (fuel : Nat) (hf : as.length < fuel) :
    nodes fuel h l = .ok as := by
  obtain ⟨v, hs⟩ := hv.head
  simp only [nodes, Heap.next_of_get hs, bind, Except.bind]
  exact hv.chain.nodesFrom_eq fuel hf

theorem Valid.countNodes_eq {h : Heap α} {l : SingleLinkedList} {as : List Nat} {xs : List α}
    (hv : Valid h l as xs) (fuel : Nat) (hf : as.length < fuel) :
    countNodes fuel h l = .ok l.size_ := by
  simp [countNodes, hv.nodes_eq fuel hf, bind, Except.bind, pure, Except.pure, hv.size,
    hv.chain.length_eq]

theorem Valid.sizeInv {h : Heap α} {l : SingleLinkedList} {as : List Nat} {xs : List α}
    (hv : Valid h l as xs) : SizeInv h l :=
  ⟨as.length + 1, hv.countNodes_eq _ (Nat.lt_succ_self _)⟩

theorem nodes_valid {h : Heap α} {l : SingleLinkedList} {fuel : Nat} {ns : List Nat}
    (hn : nodes fuel h l = .ok ns) (hs : l.size_ = ns.length) :
    ∃ xs, Valid h l ns xs := by
  simp only [nodes, bind, Except.bind] at hn
  match hx : h.next l.head_ with
  | .error e =>
    rw [hx] at hn
    simp at hn
  | .ok first =>
    rw [hx] at hn
    simp only at hn
    obtain ⟨n, hcell, hnx⟩ := Heap.next_ok hx
    obtain ⟨xs, hc, hp⟩ := nodesFrom_chain fuel hn
    have hfull : Chain h (l.head_ :: ns) (n.value :: xs) := by
      refine ⟨?_, hc⟩
      rw [hcell, ← hp, ← hnx]
    exact ⟨xs, ⟨n.value, hfull.1⟩, hc, hfull.nodup, by rw [hs, hc.length_eq]⟩

theorem SizeInv.valid {h : Heap α} {l : SingleLinkedList} (hi : SizeInv h l) :
    ∃ as xs, Valid h l as xs := by
  obtain ⟨fuel, hc⟩ := hi
  simp only [countNodes, bind, Except.bind] at hc
  match hn : nodes fuel h l with
  | .error e =>
    rw [hn] at hc
    simp at hc
  | .ok ns =>
    rw [hn] at hc
    simp only [pure, Except.pure, Except.ok.injEq] at hc
    obtain ⟨xs, hv⟩ := nodes_valid hn hc.symm
    exact ⟨ns, xs, hv⟩

theorem Valid.position_iff {h : Heap α} {l : SingleLinkedList} {as : List Nat} {xs : List α}
    (hv : Valid h l as xs) (p : Nat) : Position h l p ↔ p ∈ l.head_ :: as := by
  constructor
  · rintro ⟨fuel, ns, hn, hp⟩
    obtain ⟨v, hs⟩ := hv.head
    simp only [nodes, Heap.next_of_get hs, bind, Except.bind] at hn
    obtain ⟨ys, hc, hhead⟩ := nodesFrom_chain fuel hn
    rw [Chain.same_nodes hv.chain hc hhead]
    exact hp
  · intro hp
    exact ⟨as.length + 1, as, hv.nodes_eq _ (Nat.lt_succ_self _), hp⟩

/-! ## Copy assignment and self-swap -/

theorem Heap.set_self {h : Heap α} {p : Nat} {c : Option (Node α)} (hc : h[p]? = some c) :
    h.set p c = h := by
  refine List.ext_getElem? (fun i => ?_)
  by_cases hi : i = p
  · subst hi
    rw [Heap.get_set_eq h c (Heap.lt_of_get hc), hc]
  · exact Heap.get_set_ne h c hi

theorem swap_self {h : Heap α} {a : SingleLinkedList} {as : List Nat} {xs : List α}
    (ha : Valid h a as xs) : swap h a a = .ok (h, a, a) := by
  obtain ⟨v, hs⟩ := ha.head
  have e1 : h.set a.head_ (some (Node.mk v as.head?)) = h := Heap.set_self hs
  have hs1 : (h.set a.head_ (some (Node.mk v as.head?)))[a.head_]? =
      some (some ⟨v, as.head?⟩) := by
    rw [e1]; exact hs
  simp only [swap, Heap.next_of_get hs, Heap.setNext_of_get _ hs, Heap.setNext_of_get _ hs1,
    bind, Except.bind, pure, Except.pure, List.set_set, e1]

theorem assign_spec [Inhabited α] {h : Heap α} {this rhs : SingleLinkedList}
    {tas ras : List Nat} {txs rxs : List α} (fuel : Nat) (ht : Valid h this tas txs)
    (hr : Valid h rhs ras rxs) (hne : this.head_ ≠ rhs.head_) (hf1 : rxs.length < fuel)
    (hf2 : txs.length < fuel) :
    ∃ g bs, assign fuel h this rhs = .ok (g, ⟨this.head_, rxs.length⟩) ∧
      Valid g ⟨this.head_, rxs.length⟩ bs rxs ∧ Frame h g (this.head_ :: tas) ∧
      ∀ b ∈ bs, h.length < b := by
  obtain ⟨g1, bs, hc, hvc, hfr1, hbs⟩ := copy_spec fuel hr hf1
  have ht1 : Valid g1 this tas txs := ht.carry hfr1 (by simp)
  have hthis := ht.head_lt
  have htas := ht.chain.lt_length
  have hlen := ht.chain.length_eq
  obtain ⟨g2, hs, hvt, hvtemp, hfr2, _⟩ := swap_spec ht1 hvc
    (by simp only; omega)
    (fun hm => by
      have := hbs _ hm
      omega)
    (fun hm => by
      have := htas _ hm
      simp only at this
      omega)
  obtain ⟨g3, hd, hfr3, _⟩ := destroy_spec fuel hvtemp (by omega)
  have hvt3 : Valid g3 ⟨this.head_, rxs.length⟩ bs rxs := hvt.carry hfr3 (by
    intro b hb hb2
    simp only [List.mem_cons] at hb hb2
    rcases hb with rfl | hb
    · rcases hb2 with e | hb2
      · omega
      · exact (List.nodup_cons.1 ht.nodup).1 hb2
    · have h1 := hbs b hb
      rcases hb2 with e | hb2
      · omega
      · have := htas _ hb2
        omega)
  refine ⟨g3, bs, ?_, hvt3, ?_, hbs⟩
  · simp only [assign, hne, ne_eq, not_false_eq_true, ↓reduceIte, hc, hs, hd, bind,
      Except.bind, pure, Except.pure]
  · have e1 : Frame h g1 (this.head_ :: tas) := hfr1.mono (by simp)
    have e2 : Frame h g2 (this.head_ :: tas) := e1.trans hfr2 (fun a ha hlt => by
      simp only [List.mem_cons, List.mem_singleton, List.not_mem_nil, or_false] at ha
      rcases ha with rfl | rfl
      · exact List.mem_cons_self _ _
      · omega)
    exact e2.trans hfr3 (fun a ha hlt => by
      simp only [List.mem_cons] at ha
      rcases ha with rfl | ha
      · omega
      · exact List.mem_cons_of_mem _ ha)

/-! ## Equality reads only the compared nodes; mutations stay inside their list -/

theorem mutate_spec {h : Heap α} {l : SingleLinkedList} {as : List Nat} {xs : List α}
    (fuel : Nat) (m : Mutation α) (hv : Valid h l as xs) (hpre : m.Pre l as)
    (hf : as.length < fuel) :
    ∃ g l' as' xs', mutate fuel h l m = .ok (g, l') ∧ Valid g l' as' xs' ∧
      Frame h g (l.head_ :: as) := by
  cases m with
  | pushFront v =>
    obtain ⟨g, hp, hvg, hfr, _⟩ := PushFront_spec hv v
    exact ⟨g, _, _, _, hp, hvg, hfr.mono (fun a ha _ => by
      simp only [List.mem_singleton] at ha
      simp [ha])⟩
  | popFront =>
    have hlen := hv.chain.length_eq
    match as, xs, hv, hpre, hlen with
    | a :: as, x :: xs, hv, _, _ =>
      obtain ⟨g, hp, hvg, hfr, _⟩ := PopFront_spec hv
      exact ⟨g, _, _, _, hp, hvg, hfr.mono (fun b hb _ => by
        simp only [List.mem_cons, List.mem_singleton, List.not_mem_nil, or_false] at hb
        rcases hb with rfl | rfl <;> simp)⟩
    | [], _, _, hpre, _ => exact absurd rfl hpre
    | _ :: _, [], _, _, hlen => simp at hlen
  | clear =>
    obtain ⟨g, hp, hvg, hfr, _⟩ := Clear_spec fuel hv hf
    exact ⟨g, _, _, _, hp, hvg, hfr⟩
  | insertAfter pos v =>
    obtain ⟨k, p, rfl, hk⟩ := hpre
    obtain ⟨g, hp, hvg, _, _, hfr, _⟩ := InsertAfter_spec v hv hk
    refine ⟨g, _, _, _, ?_, hvg, hfr.mono (fun a ha _ => ?_)⟩
    · simp [mutate, hp, bind, Except.bind, pure, Except.pure]
    · simp only [List.mem_singleton] at ha
      rw [ha]
      exact List.getElem?_mem hk
  | eraseAfter pos =>
    obtain ⟨k, p, rfl, hk, hlt⟩ := hpre
    obtain ⟨g, hp, hvg, _, hfr, _⟩ := EraseAfter_spec hv hk hlt
    refine ⟨g, _, _, _, ?_, hvg, hfr.mono (fun a ha _ => ?_)⟩
    · simp [mutate, hp, bind, Except.bind, pure, Except.pure]
    · rcases List.mem_cons.1 ha with rfl | ha
      · exact List.getElem?_mem hk
      · exact List.mem_cons_of_mem _ ha

/-! ## Insertion undone by removal -/

theorem take_insert_drop_erase {β : Type} (l : List β) (k : Nat) (x : β) (hk : k ≤ l.length) :
    (l.take k ++ x :: l.drop k).eraseIdx k = l ∧
    (l.take k ++ x :: l.drop k)[k + 1]? = l[k]? ∧
    ∀ j, j < k → (l.take k ++ x :: l.drop k)[j]? = l[j]? := by
  have hlen : (l.take k).length = k := by
    rw [List.length_take]
    omega
  refine ⟨?_, ?_, fun j hj => ?_⟩
  · rw [List.eraseIdx_append_of_length_le (Nat.le_of_eq hlen), hlen, Nat.sub_self]
    simp
  · rw [List.getElem?_append_right (by omega), hlen]
    have : k + 1 - k = 1 := by omega
    rw [this]
    simp [List.getElem?_drop]
  · rw [List.getElem?_append_left (by omega), List.getElem?_take_of_lt hj]

theorem InsertAfter_EraseAfter_spec {h : Heap α} {l : SingleLinkedList} {as : List Nat}
    {xs : List α} {k p : Nat} (v : α) (hv : Valid h l as xs)
    (hk : (l.head_ :: as)[k]? = some p) :
    ∃ g1 l1 it1 g2, InsertAfter h l ⟨some p⟩ v = .ok (g1, l1, it1) ∧
      EraseAfter g1 l1 ⟨some p⟩ = .ok (g2, l, ⟨as[k]?⟩) ∧ Valid g2 l as xs := by
  obtain ⟨g1, hi, hv1, _, _, _, _⟩ := InsertAfter_spec v hv hk
  have hlen := hv.chain.length_eq
  have hkle : k ≤ as.length := by
    have : k < (l.head_ :: as).length := by
      by_contra hcon
      rw [List.getElem?_eq_none (Nat.le_of_not_lt hcon)] at hk
      simp at hk
    simp only [List.length_cons] at this
    omega
  obtain ⟨ea, eb, ec⟩ := take_insert_drop_erase as k h.length hkle
  obtain ⟨ex, _, _⟩ := take_insert_drop_erase xs k v (by omega)
  have hk1 : (l.head_ :: (as.take k ++ h.length :: as.drop k))[k]? = some p := by
    cases k with
    | zero => simpa using hk
    | succ j =>
      simp only [List.getElem?_cons_succ] at hk ⊢
      rw [ec j (Nat.lt_succ_self _)]
      exact hk
  have hlt1 : k < (as.take k ++ h.length :: as.drop k).length := by
    simp only [List.length_append, List.length_take, List.length_cons, List.length_drop]
    omega
  obtain ⟨g2, he, hv2, _, _, _⟩ := EraseAfter_spec hv1 hk1 hlt1
  rw [ea, ex] at hv2
  rw [eb] at he
  have hl : (⟨l.head_, l.size_ + 1 - 1⟩ : SingleLinkedList) = l := by
    cases l
    simp
  simp only [hl] at he hv2
  exact ⟨g1, _, _, g2, hi, he, hv2⟩

/-! ## The size invariant under each operation -/

theorem sizeInv_iff_valid {h : Heap α} {l : SingleLinkedList} :
    SizeInv h l ↔ ∃ as xs, Valid h l as xs :=
  ⟨SizeInv.valid, fun ⟨_, _, hv⟩ => hv.sizeInv⟩

theorem Valid.index_of_position {h : Heap α} {l : SingleLinkedList} {as : List Nat}
    {xs : List α} {p : Nat} (hv : Valid h l as xs) (hp : Position h l p) :
    ∃ k : Nat, (l.head_ :: as)[k]? = some p :=
  List.getElem?_of_mem ((hv.position_iff p).1 hp)

theorem Valid.succ_index {h : Heap α} {l : SingleLinkedList} {as : List Nat} {xs : List α}
    {k p s : Nat} (hv : Valid h l as xs) (hk : (l.head_ :: as)[k]? = some p)
    (hn : h.next p = .ok (some s)) : k < as.length := by
  obtain ⟨sv, hfull⟩ := hv.full_chain
  obtain ⟨w, _, hp⟩ := Chain.get_of_index k hfull hk
  rw [Heap.next_of_get hp] at hn
  simp only [List.getElem?_cons_succ, Except.ok.injEq] at hn
  by_contra hcon
  rw [List.getElem?_eq_none (Nat.le_of_not_lt hcon)] at hn
  simp at hn

theorem sizeInv_copy [Inhabited α] {h : Heap α} {src : SingleLinkedList} (fuel : Nat)
    (hi : SizeInv h src) (hf : src.size_ < fuel) :
    ∃ g l, copy fuel h src = .ok (g, l) ∧ SizeInv g l ∧ SizeInv g src := by
  obtain ⟨as, xs, hv⟩ := hi.valid
  obtain ⟨g, bs, hc, hvl, hfr, _⟩ := copy_spec fuel hv (by rw [← hv.size]; exact hf)
  exact ⟨g, _, hc, hvl.sizeInv, (hv.carry hfr (by simp)).sizeInv⟩

theorem sizeInv_PopFront {h : Heap α} {l : SingleLinkedList} (hi : SizeInv h l)
    (he : l.IsEmpty = false) : ∃ g l', PopFront h l = .ok (g, l') ∧ SizeInv g l' := by
  obtain ⟨as, xs, hv⟩ := hi.valid
  have hlen := hv.chain.length_eq
  have hs := hv.size
  match as, xs, hv, hlen, hs with
  | a :: as, x :: xs, hv, _, _ =>
    obtain ⟨g, hp, hvg, _, _⟩ := PopFront_spec hv
    exact ⟨g, _, hp, hvg.sizeInv⟩
  | [], [], _, _, hs =>
    simp [SingleLinkedList.IsEmpty, hs] at he
  | [], _ :: _, _, hlen, _ => simp at hlen
  | _ :: _, [], _, hlen, _ => simp at hlen

theorem sizeInv_Clear {h : Heap α} {l : SingleLinkedList} (fuel : Nat) (hi : SizeInv h l)
    (hf : l.size_ < fuel) : ∃ g l', Clear fuel h l = .ok (g, l') ∧ SizeInv g l' := by
  obtain ⟨as, xs, hv⟩ := hi.valid
  obtain ⟨g, hc, hvg, _, _⟩ := Clear_spec fuel hv
    (by rw [hv.chain.length_eq, ← hv.size]; exact hf)
  exact ⟨g, _, hc, hvg.sizeInv⟩

theorem sizeInv_swap {h : Heap α} {a b : SingleLinkedList} (ha : SizeInv h a)
    (hb : SizeInv h b) (hab : ¬ Position h b a.head_) (hba : ¬ Position h a b.head_) :
    ∃ g a' b', swap h a b = .ok (g, a', b') ∧ SizeInv g a' ∧ SizeInv g b' := by
  obtain ⟨as, xs, hva⟩ := ha.valid
  obtain ⟨bs, ys, hvb⟩ := hb.valid
  have h1 : a.head_ ∉ b.head_ :: bs := fun hm => hab ((hvb.position_iff _).2 hm)
  have h2 : b.head_ ∉ a.head_ :: as := fun hm => hba ((hva.position_iff _).2 hm)
  obtain ⟨g, hs, hv1, hv2, _, _⟩ := swap_spec hva hvb
    (fun e => h1 (e ▸ List.mem_cons_self _ _))
    (fun hm => h1 (List.mem_cons_of_mem _ hm))
    (fun hm => h2 (List.mem_cons_of_mem _ hm))
  exact ⟨g, _, _, hs, hv1.sizeInv, hv2.sizeInv⟩

theorem sizeInv_assign [Inhabited α] {h : Heap α} {this rhs : SingleLinkedList} (fuel : Nat)
    (ht : SizeInv h this) (hr : SizeInv h rhs) (hf1 : this.size_ < fuel)
    (hf2 : rhs.size_ < fuel) :
    ∃ g l', assign fuel h this rhs = .ok (g, l') ∧ SizeInv g l' := by
  by_cases hne : this.head_ = rhs.head_
  · exact ⟨h, this, by simp [assign, hne, pure, Except.pure], ht⟩
  · obtain ⟨tas, txs, hvt⟩ := ht.valid
    obtain ⟨ras, rxs, hvr⟩ := hr.valid
    obtain ⟨g, bs, ha, hvg, _, _⟩ := assign_spec fuel hvt hvr hne
      (by rw [← hvr.size]; exact hf2) (by rw [← hvt.size]; exact hf1)
    exact ⟨g, _, ha, hvg.sizeInv⟩

theorem sizeInv_InsertAfter {h : Heap α} {l : SingleLinkedList} {p : Nat} (v : α)
    (hi : SizeInv h l) (hp : Position h l p) :
    ∃ g l' it, InsertAfter h l ⟨some p⟩ v = .ok (g, l', it) ∧ SizeInv g l' := by
  obtain ⟨as, xs, hv⟩ := hi.valid
  obtain ⟨k, hk⟩ := hv.index_of_position hp
  obtain ⟨g, hins, hvg, _⟩ := InsertAfter_spec v hv hk
  exact ⟨g, _, _, hins, hvg.sizeInv⟩

theorem sizeInv_EraseAfter {h : Heap α} {l : SingleLinkedList} {p s : Nat}
    (hi : SizeInv h l) (hp : Position h l p) (hn : h.next p = .ok (some s)) :
    ∃ g l' it, EraseAfter h l ⟨some p⟩ = .ok (g, l', it) ∧ SizeInv g l' := by
  obtain ⟨as, xs, hv⟩ := hi.valid
  obtain ⟨k, hk⟩ := hv.index_of_position hp
  obtain ⟨g, he, hvg, _⟩ := EraseAfter_spec hv hk (hv.succ_index hk hn)
  exact ⟨g, _, _, he, hvg.sizeInv⟩

/-! ## Equality over an arbitrary element comparison -/

theorem std_equal_elementwise [BEq α] : ∀ (xs : List α) {ys : List α} {as bs : List Nat}
    {h : Heap α} (fuel : Nat), Chain h as xs → Chain h bs ys → xs.length ≤ ys.length →
    xs.length < fuel →
    std_equal fuel h ⟨as.head?⟩ ⟨none⟩ ⟨bs.head?⟩ = .ok (allEq xs ys)
  | [], _, [], _, _, fuel, _, _, _, hf => by
    obtain ⟨f, rfl⟩ : ∃ f, fuel = f + 1 := ⟨fuel - 1, by simp at hf; omega⟩
    simp [std_equal, allEq, BasicIterator.ne, pure, Except.pure]
  | [], _, _ :: _, _, _, _, hc, _, _, _ => by simp [Chain] at hc
  | _ :: _, _, [], _, _, _, hc, _, _, _ => by simp [Chain] at hc
  | _ :: _, [], _, _, _, _, _, _, hle, _ => by simp at hle
  | _ :: _, _ :: _, _ :: _, [], _, _, _, hd, _, _ => by simp [Chain] at hd
  | x :: xs, y :: ys, a :: as, b :: bs, h, fuel, hc, hd, hle, hf => by
    obtain ⟨f, rfl⟩ : ∃ f, fuel = f + 1 := ⟨fuel - 1, by simp at hf; omega⟩
    have ih := std_equal_elementwise xs f hc.2 hd.2 (by simp at hle; omega)
      (by simp at hf; omega)
    have hb : (!(some a == (none : Option Nat))) = true := by simp
    simp only [std_equal, List.head?_cons, BasicIterator.ne, bne, hc.deref_head, hd.deref_head,
      hc.incr_head, hd.incr_head, bind, Except.bind]
    rw [if_pos hb, ih]
    cases hxy : (x == y) <;> simp [allEq, hxy, pure, Except.pure]

theorem allEq_iff [BEq α] : ∀ (xs ys : List α),
    allEq xs ys = true ↔
      ∀ (i : Nat) (x y : α), xs[i]? = some x → ys[i]? = some y → (x == y) = true
  | [], _ => by simp [allEq]
  | _ :: _, [] => by simp [allEq]
  | a :: xs, b :: ys => by
    simp only [allEq, Bool.and_eq_true, allEq_iff xs ys]
    constructor
    · rintro ⟨hab, hrest⟩ i x y hx hy
      cases i with
      | zero =>
        simp only [List.getElem?_cons_zero, Option.some.injEq] at hx hy
        rw [← hx, ← hy]
        exact hab
      | succ i =>
        simp only [List.getElem?_cons_succ] at hx hy
        exact hrest i x y hx hy
    · intro hall
      exact ⟨hall 0 a b (by simp) (by simp), fun i x y hx hy => hall (i + 1) x y (by simpa using hx)
        (by simpa using hy)⟩

theorem allEq_self_iff [BEq α] : ∀ (xs : List α),
    allEq xs xs = true ↔ ∀ x ∈ xs, (x == x) = true
  | [] => by simp [allEq]
  | a :: xs => by
    simp [allEq, allEq_self_iff xs]

theorem opEq_elementwise [BEq α] {h : Heap α} {lhs rhs : SingleLinkedList}
    {as bs : List Nat} {xs ys : List α} (fuel : Nat) (hl : Valid h lhs as xs)
    (hr : Valid h rhs bs ys) (hle : xs.length ≤ ys.length) (hf : xs.length < fuel) :
    opEq fuel h lhs rhs = .ok (allEq xs ys) := by
  simp only [opEq, hl.begin_eq, hr.begin_eq, end_, bind, Except.bind]
  exact std_equal_elementwise xs fuel hl.chain hr.chain hle hf

/-! ## Concrete lists -/

theorem demoList_valid : Valid demoHeap demoList [1, 2] [10, 20] :=
  ⟨⟨0, rfl⟩, ⟨rfl, rfl, trivial⟩, by decide, rfl⟩

theorem demoList3_valid : Valid demoHeap demoList3 [4, 5, 6] [10, 20, 30] :=
  ⟨⟨0, rfl⟩, ⟨rfl, rfl, rfl, trivial⟩, by decide, rfl⟩

/-! ## The claims -/

/-- C1: for every sequence of values `vs` (and every heap the constructor runs in), the
initializer-list constructor returns a well-formed list whose traversal from `begin()` to
`end()` is exactly `vs` and whose `GetSize()` is the length of `vs`. -/
theorem C1_initializer_list_order [Inhabited α] (fuel : Nat) (h : Heap α) (vs : List α)
    (hf : vs.length < fuel) :
    ∃ g l, ofValues fuel h vs = .ok (g, l) ∧ traverse fuel g l = .ok vs ∧
      l.GetSize = vs.length ∧ ∃ as, Valid g l as vs := by
  obtain ⟨g, bs, ho, hv, _, _⟩ := ofValues_spec fuel h vs hf
  exact ⟨g, _, ho, hv.traverse_eq fuel hf, rfl, bs, hv⟩

/-- Witness of C1 at the initializer list `{1, 2, 3}` in the empty heap. -/
theorem C1_initializer_list_order_witness :
    [1, 2, 3].length < 4 ∧
    ∃ g l, ofValues 4 ([] : Heap Nat) [1, 2, 3] = .ok (g, l) ∧ traverse 4 g l = .ok [1, 2, 3] ∧
      l.GetSize = [1, 2, 3].length ∧ ∃ as, Valid g l as [1, 2, 3] :=
  ⟨by decide, C1_initializer_list_order 4 [] [1, 2, 3] (by decide)⟩

/-- C2: the copy constructor, run on a well-formed list `src` holding `xs`, returns a
well-formed list with the same traversal sequence `xs` and the same `GetSize()`, made of
nodes none of which belongs to `src`; `src` still consists of the same nodes holding
`xs`, so its traversal and size are unchanged. -/
theorem C2_copy_constructor [Inhabited α] (fuel : Nat) (h : Heap α) (src : SingleLinkedList)
    (as : List Nat) (xs : List α) (hv : Valid h src as xs) (hf : xs.length < fuel) :
    ∃ g l, copy fuel h src = .ok (g, l) ∧ traverse fuel g l = .ok xs ∧
      l.GetSize = src.GetSize ∧
      traverse fuel h src = .ok xs ∧ traverse fuel g src = .ok xs ∧ Valid g src as xs ∧
      ∃ bs, Valid g l bs xs ∧ ∀ b ∈ l.head_ :: bs, b ∉ src.head_ :: as := by
  obtain ⟨g, bs, hc, hvl, hfr, hbs⟩ := copy_spec fuel hv hf
  have hvs : Valid g src as xs := hv.carry hfr (by simp)
  refine ⟨g, _, hc, hvl.traverse_eq fuel hf, ?_, hv.traverse_eq fuel hf,
    hvs.traverse_eq fuel hf, hvs, bs, hvl, fun b hb hb2 => ?_⟩
  · simp [GetSize, hv.size]
  · have hlt : b < h.length := by
      rcases List.mem_cons.1 hb2 with rfl | hb2
      · exact hv.head_lt
      · exact hv.chain.lt_length b hb2
    rcases List.mem_cons.1 hb with rfl | hb
    · exact Nat.lt_irrefl _ hlt
    · have := hbs b hb
      omega

/-- Witness of C2 at the list `{10, 20}` of `demoHeap`. -/
theorem C2_copy_constructor_witness :
    Valid demoHeap demoList [1, 2] [10, 20] ∧
    ∃ g l, copy 3 demoHeap demoList = .ok (g, l) ∧ traverse 3 g l = .ok [10, 20] ∧
      l.GetSize = demoList.GetSize ∧
      traverse 3 demoHeap demoList = .ok [10, 20] ∧ traverse 3 g demoList = .ok [10, 20] ∧
      Valid g demoList [1, 2] [10, 20] ∧
      ∃ bs, Valid g l bs [10, 20] ∧ ∀ b ∈ l.head_ :: bs, b ∉ demoList.head_ :: [1, 2] :=
  ⟨demoList_valid,
    C2_copy_constructor 3 demoHeap demoList [1, 2] [10, 20] demoList_valid (by decide)⟩

/-- C3 (violated by the code): lists of different lengths are not always unequal.
`{1, 2} == {1, 2, 3}` evaluates to `true`, because `std::equal` is called without the end
of the right operand; and `{1, 2, 3} == {1, 2}` advances the iterator of the right operand
to its end and dereferences it there, which fails the `assert` of `operator*`. -/
theorem C3_eq_length_mismatch :
    eqOfValues 4 [1, 2] [1, 2, 3] = .ok true ∧
    eqOfValues 4 [1, 2, 3] [1, 2] = .error .assertion :=
  ⟨rfl, rfl⟩

/-- C4, the claim as stated, is false: for the element type `double` the list
`l = {1, NaN}` is well-formed and `l == l` returns `false`, although the elements at
every traversal index are the same; so not every list equals itself.  This holds for
the list of `nanHeap` and for the list built by the initializer-list constructor. -/
theorem C4_self_equality_fails_for_nan :
    Valid nanHeap nanList [1, 2] [Dbl.val 1, Dbl.nan] ∧
    opEq 3 nanHeap nanList nanList = .ok false ∧
    eqSelfOfValues 3 [Dbl.val 1, Dbl.nan] = .ok false :=
  ⟨⟨⟨Dbl.val 0, rfl⟩, ⟨rfl, rfl, trivial⟩, by decide, rfl⟩, rfl, rfl⟩

/-- C4 (amended): on two well-formed lists of the same length, over any element type with
an `operator==`, `operator==` of lists returns, and it returns `true` exactly when at
every traversal index the element of `lhs` is `==` to the element of `rhs`.  A list
compared with itself gives `true` exactly when each of its elements is `==` to itself,
hence always when the element `==` is reflexive; two empty lists are equal. -/
theorem C4_eq_same_length [BEq α] (fuel : Nat) (h : Heap α)
    (lhs rhs : SingleLinkedList) (as bs : List Nat) (xs ys : List α)
    (hl : Valid h lhs as xs) (hr : Valid h rhs bs ys) (hlen : xs.length = ys.length)
    (hf : xs.length < fuel) :
    (∃ b, opEq fuel h lhs rhs = .ok b ∧
      (b = true ↔
        ∀ (i : Nat) (x y : α), xs[i]? = some x → ys[i]? = some y → (x == y) = true)) ∧
    (∃ b, opEq fuel h lhs lhs = .ok b ∧ (b = true ↔ ∀ x ∈ xs, (x == x) = true)) ∧
    ((∀ x : α, (x == x) = true) → opEq fuel h lhs lhs = .ok true) ∧
    (xs = [] → opEq fuel h lhs rhs = .ok true) := by
  have e1 := opEq_elementwise fuel hl hr (Nat.le_of_eq hlen) hf
  have e2 := opEq_elementwise fuel hl hl (Nat.le_refl _) hf
  refine ⟨⟨_, e1, allEq_iff xs ys⟩, ⟨_, e2, allEq_self_iff xs⟩, fun hrefl => ?_, fun hx => ?_⟩
  · rw [e2, (allEq_self_iff xs).2 (fun x _ => hrefl x)]
  · rw [e1, hx]
    rfl

/-- Witness of C4 (amended): the lists `{1, NaN}` and `{1, 2}` of `nanHeap`, of the same
length. -/
theorem C4_eq_same_length_witness :
    Valid nanHeap nanList [1, 2] [Dbl.val 1, Dbl.nan] ∧
    Valid nanHeap numList [4, 5] [Dbl.val 1, Dbl.val 2] ∧
    [Dbl.val 1, Dbl.nan].length = [Dbl.val 1, Dbl.val 2].length ∧
    [Dbl.val 1, Dbl.nan].length < 3 ∧
    (∃ b, opEq 3 nanHeap nanList numList = .ok b ∧
      (b = true ↔
        ∀ (i : Nat) (x y : Dbl), [Dbl.val 1, Dbl.nan][i]? = some x →
          [Dbl.val 1, Dbl.val 2][i]? = some y → (x == y) = true)) ∧
    (∃ b, opEq 3 nanHeap nanList nanList = .ok b ∧
      (b = true ↔ ∀ x ∈ [Dbl.val 1, Dbl.nan], (x == x) = true)) ∧
    ((∀ x : Dbl, (x == x) = true) → opEq 3 nanHeap nanList nanList = .ok true) ∧
    ([Dbl.val 1, Dbl.nan] = [] → opEq 3 nanHeap nanList numList = .ok true) :=
  ⟨⟨⟨Dbl.val 0, rfl⟩, ⟨rfl, rfl, trivial⟩, by decide, rfl⟩,
    ⟨⟨Dbl.val 0, rfl⟩, ⟨rfl, rfl, trivial⟩, by decide, rfl⟩, rfl, by decide,
    C4_eq_same_length 3 nanHeap nanList numList [1, 2] [4, 5] [Dbl.val 1, Dbl.nan]
      [Dbl.val 1, Dbl.val 2] ⟨⟨Dbl.val 0, rfl⟩, ⟨rfl, rfl, trivial⟩, by decide, rfl⟩
      ⟨⟨Dbl.val 0, rfl⟩, ⟨rfl, rfl, trivial⟩, by decide, rfl⟩ rfl (by decide)⟩

/-- C5 (violated by the code): `operator==` is not symmetric.  For the lists
`a = {10, 20}` and `b = {10, 20, 30}` of `demoHeap`, `a == b` returns `true` while `b == a`
fails the `assert` of `operator*` on the exhausted iterator of `a`. -/
theorem C5_eq_not_symmetric :
    opEq 4 demoHeap demoList demoList3 = .ok true ∧
    opEq 4 demoHeap demoList3 demoList = .error .assertion :=
  ⟨rfl, rfl⟩

/-- C6 (violated by the code): `operator<=` returns `!(rhs > lhs)`, which is
`!(lhs < rhs)`, the value of `operator>=`, on every input; so `{1} <= {2}` evaluates to
`false` and `{2} <= {1}` to `true`. -/
theorem C6_le_operands_swapped :
    (∀ (fuel : Nat) (h : Heap Nat) (lhs rhs : SingleLinkedList),
      opLe fuel h lhs rhs = opGe fuel h lhs rhs) ∧
    leOfValues 2 [1] [2] = .ok false ∧ leOfValues 2 [2] [1] = .ok true :=
  ⟨fun _ _ _ _ => rfl, rfl, rfl⟩

/-- C7: on two well-formed lists over a linearly ordered element type `operator<` returns,
and it returns `true` exactly when the left element sequence is lexicographically less
than the right one (first differing element decides, a strict prefix is less); no list
is less than itself. -/
theorem C7_lt_lexicographic [LinearOrder α] (fuel : Nat) (h : Heap α)
    (lhs rhs : SingleLinkedList) (as bs : List Nat) (xs ys : List α)
    (hl : Valid h lhs as xs) (hr : Valid h rhs bs ys) (hf : xs.length < fuel) :
    (∃ b, opLt fuel h lhs rhs = .ok b ∧ (b = true ↔ LexLess xs ys)) ∧
      opLt fuel h lhs lhs = .ok false := by
  have key : ∀ {r : SingleLinkedList} {cs : List Nat} {zs : List α}, Valid h r cs zs →
      opLt fuel h lhs r = .ok (lexCompare xs zs) := by
    intro r cs zs hvr
    simp only [opLt, hl.begin_eq, hvr.begin_eq, end_, bind, Except.bind]
    exact lex_chain xs fuel hl.chain hvr.chain hf
  refine ⟨⟨lexCompare xs ys, key hr, lexCompare_iff xs ys⟩, ?_⟩
  rw [key hl]
  have : ¬ lexCompare xs xs = true := fun e => LexLess.irrefl xs ((lexCompare_iff xs xs).1 e)
  simpa using this

/-- Witness of C7: `{10, 20} < {10, 20, 30}` in `demoHeap`. -/
theorem C7_lt_lexicographic_witness :
    Valid demoHeap demoList [1, 2] [10, 20] ∧ Valid demoHeap demoList3 [4, 5, 6] [10, 20, 30] ∧
    [10, 20].length < 3 ∧
    (∃ b, opLt 3 demoHeap demoList demoList3 = .ok b ∧
      (b = true ↔ LexLess [10, 20] [10, 20, 30])) ∧
      opLt 3 demoHeap demoList demoList = .ok false :=
  ⟨demoList_valid, demoList3_valid, by decide,
    C7_lt_lexicographic 3 demoHeap demoList demoList3 [1, 2] [4, 5, 6] [10, 20] [10, 20, 30]
      demoList_valid demoList3_valid (by decide)⟩

/-- C8: the self-assignment `a = a` returns and leaves the heap and the object as they
were, so the traversal sequence of `a` and its `GetSize()` are unchanged. -/
theorem C8_self_assignment [Inhabited α] (fuel n : Nat) (h : Heap α) (a : SingleLinkedList) :
    ∃ g a', assign fuel h a a = .ok (g, a') ∧ g = h ∧ traverse n g a' = traverse n h a ∧
      a'.GetSize = a.GetSize :=
  ⟨h, a, by simp [assign, pure, Except.pure], rfl, rfl, rfl⟩

/-- C9: let `l` be a well-formed list with nodes `as` holding `xs`, and let `pos` reference
the `k`-th node of the chain `head_ :: as` (`k = 0` is `before_begin()`, `k = i + 1` is
the element at index `i`).  Then `InsertAfter(pos, v)` returns; the new list is
well-formed and its traversal is `xs` with `v` inserted at index `k`, that is right
after `pos` and before the former successor of `pos`; `GetSize()` has grown by exactly
one; the returned position references the new node: it dereferences to `v`, is the
successor of `pos`, and its own successor is the former successor of `pos`.  With
`pos = before_begin()` the returned position is `begin()` and the traversal is `v :: xs`. -/
theorem C9_insert_after (fuel : Nat) (h : Heap α) (l : SingleLinkedList) (as : List Nat)
    (xs : List α) (k p : Nat) (v : α) (hv : Valid h l as xs)
    (hk : (l.head_ :: as)[k]? = some p) (hf : xs.length + 1 < fuel) :
    ∃ g l' it n, InsertAfter h l ⟨some p⟩ v = .ok (g, l', it) ∧
      Valid g l' (as.take k ++ n :: as.drop k) (xs.take k ++ v :: xs.drop k) ∧
      traverse fuel g l' = .ok (xs.take k ++ v :: xs.drop k) ∧
      l'.GetSize = l.GetSize + 1 ∧
      it.node_ = some n ∧ it.deref g = .ok v ∧
      BasicIterator.incr g ⟨some p⟩ = .ok it ∧ it.incr g = .ok ⟨as[k]?⟩ ∧
      (k = 0 → p = l.head_ ∧ begin g l' = .ok it ∧ traverse fuel g l' = .ok (v :: xs)) := by
  obtain ⟨g, hi, hvg, hnew, ⟨w, hpos⟩, _, _⟩ := InsertAfter_spec v hv hk
  have hlen := hv.chain.length_eq
  have hklen : k < (l.head_ :: as).length := by
    by_contra hcon
    rw [List.getElem?_eq_none (Nat.le_of_not_lt hcon)] at hk
    simp at hk
  have htr : traverse fuel g ⟨l.head_, l.size_ + 1⟩ = .ok (xs.take k ++ v :: xs.drop k) := by
    refine hvg.traverse_eq fuel ?_
    simp only [List.length_append, List.length_take, List.length_cons, List.length_drop]
    simp only [List.length_cons] at hklen
    omega
  refine ⟨g, _, _, h.length, hi, hvg, htr, rfl, rfl, ?_, ?_, ?_, ?_⟩
  · simp [BasicIterator.deref, Heap.load_of_get hnew]
  · simp [BasicIterator.incr, Heap.next_of_get hpos]
  · simp [BasicIterator.incr, Heap.next_of_get hnew]
  · rintro rfl
    simp only [List.getElem?_cons_zero, Option.some.injEq] at hk
    subst hk
    refine ⟨rfl, ?_, by simpa using htr⟩
    simp [begin, Heap.next_of_get hpos]

/-- Witness of C9: inserting `15` after the first element of the list `{10, 20}` of
`demoHeap`. -/
theorem C9_insert_after_witness :
    Valid demoHeap demoList [1, 2] [10, 20] ∧ (demoList.head_ :: [1, 2])[1]? = some 1 ∧
    [10, 20].length + 1 < 4 ∧
    ∃ g l' it n, InsertAfter demoHeap demoList ⟨some 1⟩ 15 = .ok (g, l', it) ∧
      Valid g l' ([1, 2].take 1 ++ n :: [1, 2].drop 1)
        ([10, 20].take 1 ++ 15 :: [10, 20].drop 1) ∧
      traverse 4 g l' = .ok ([10, 20].take 1 ++ 15 :: [10, 20].drop 1) ∧
      l'.GetSize = demoList.GetSize + 1 ∧
      it.node_ = some n ∧ it.deref g = .ok 15 ∧
      BasicIterator.incr g ⟨some 1⟩ = .ok it ∧ it.incr g = .ok ⟨[1, 2][1]?⟩ ∧
      (1 = 0 → 1 = demoList.head_ ∧ begin g l' = .ok it ∧
        traverse 4 g l' = .ok (15 :: [10, 20])) :=
  ⟨demoList_valid, rfl, by decide,
    C9_insert_after 4 demoHeap demoList [1, 2] [10, 20] 1 1 15 demoList_valid rfl (by decide)⟩

/-- C10: let `l` be a well-formed list with nodes `as` holding `xs`, and let `pos`
reference the `k`-th node of the chain `head_ :: as` (`k = 0` is `before_begin()`), with
`k < as.length` so that `pos` has a successor.  Then `EraseAfter(pos)` returns; the new
list is well-formed and holds `xs` without the element at index `k` (the one that
followed `pos`), all others in their order; `GetSize()` has dropped by exactly one; the
returned position is the new successor of `pos`, namely the node now at index `k`, or
`end()` if there is none.  With `pos = before_begin()` exactly the first element is
removed. -/
theorem C10_erase_after (fuel : Nat) (h : Heap α) (l : SingleLinkedList) (as : List Nat)
    (xs : List α) (k p : Nat) (hv : Valid h l as xs) (hk : (l.head_ :: as)[k]? = some p)
    (hlt : k < as.length) (hf : xs.length < fuel) :
    ∃ g l' it, EraseAfter h l ⟨some p⟩ = .ok (g, l', it) ∧
      Valid g l' (as.eraseIdx k) (xs.eraseIdx k) ∧
      traverse fuel g l' = .ok (xs.eraseIdx k) ∧
      l'.GetSize + 1 = l.GetSize ∧
      it.node_ = (as.eraseIdx k)[k]? ∧ ((as.eraseIdx k)[k]? = none → it = l'.end_) ∧
      BasicIterator.incr g ⟨some p⟩ = .ok it ∧
      (k = 0 → p = l.head_ ∧ traverse fuel g l' = .ok xs.tail) := by
  obtain ⟨g, he, hvg, ⟨w, hpos⟩, _, _⟩ := EraseAfter_spec hv hk hlt
  have hlen := hv.chain.length_eq
  have hidx : (as.eraseIdx k)[k]? = as[k + 1]? := by
    rw [List.getElem?_eraseIdx]
    simp
  have htr : traverse fuel g ⟨l.head_, l.size_ - 1⟩ = .ok (xs.eraseIdx k) := by
    refine hvg.traverse_eq fuel ?_
    rw [List.length_eraseIdx_of_lt (by omega)]
    omega
  refine ⟨g, _, _, he, hvg, htr, ?_, hidx.symm, ?_, ?_, ?_⟩
  · simp only [GetSize, hv.size]
    omega
  · intro hnone
    rw [hidx] at hnone
    simp [end_, hnone]
  · simp [BasicIterator.incr, Heap.next_of_get hpos]
  · rintro rfl
    simp only [List.getElem?_cons_zero, Option.some.injEq] at hk
    exact ⟨hk.symm, by simpa using htr⟩

/-- Witness of C10: erasing after `before_begin()` in the list `{10, 20}` of `demoHeap`. -/
theorem C10_erase_after_witness :
    Valid demoHeap demoList [1, 2] [10, 20] ∧ (demoList.head_ :: [1, 2])[0]? = some 0 ∧
    0 < [1, 2].length ∧ [10, 20].length < 3 ∧
    ∃ g l' it, EraseAfter demoHeap demoList ⟨some 0⟩ = .ok (g, l', it) ∧
      Valid g l' ([1, 2].eraseIdx 0) ([10, 20].eraseIdx 0) ∧
      traverse 3 g l' = .ok ([10, 20].eraseIdx 0) ∧
      l'.GetSize + 1 = demoList.GetSize ∧
      it.node_ = ([1, 2].eraseIdx 0)[0]? ∧ (([1, 2].eraseIdx 0)[0]? = none → it = l'.end_) ∧
      BasicIterator.incr g ⟨some 0⟩ = .ok it ∧
      (0 = 0 → 0 = demoList.head_ ∧ traverse 3 g l' = .ok [10, 20].tail) :=
  ⟨demoList_valid, rfl, by decide, by decide,
    C10_erase_after 3 demoHeap demoList [1, 2] [10, 20] 0 0 demoList_valid rfl (by decide)
      (by decide)⟩


/-- C11 (violated by the code): a call of `EraseAfter` at the last node of a non-empty
list is not stopped by an assertion.  Both `assert(!IsEmpty())` and
`assert(pos.node_ != nullptr)` pass, and the missing successor is then dereferenced
(`pos.node_->next_node->next_node` with `next_node == nullptr`): in `demoHeap`, for the list
`{10, 20}` and the position of `20`, and in general for the last position of every
non-empty well-formed list.  Only the empty list is caught by the first assertion. -/
theorem C11_erase_after_last_unchecked :
    EraseAfter demoHeap demoList ⟨some 2⟩ = .error .undefined ∧
    (∀ (h : Heap α) (l : SingleLinkedList) (as : List Nat) (xs : List α) (p : Nat),
      Valid h l as xs → as ≠ [] → (l.head_ :: as)[as.length]? = some p →
      EraseAfter h l ⟨some p⟩ = .error .undefined) ∧
    (∀ (h : Heap α) (l : SingleLinkedList) (pos : BasicIterator),
      Valid h l [] [] → EraseAfter h l pos = .error .assertion) := by
  refine ⟨rfl, fun h l as xs p hv hne hk => ?_, fun h l pos hv => ?_⟩
  · obtain ⟨sv, hfull⟩ := hv.full_chain
    obtain ⟨w, _, hp⟩ := Chain.get_of_index as.length hfull hk
    have hnone : (l.head_ :: as)[as.length + 1]? = none :=
      List.getElem?_eq_none (by simp)
    rw [hnone] at hp
    have hlen := hv.chain.length_eq
    have hpos : 0 < as.length := List.length_pos.2 hne
    have hemp : l.IsEmpty = false := by
      simp only [SingleLinkedList.IsEmpty, hv.size, beq_eq_false_iff_ne, ne_eq]
      omega
    simp [EraseAfter, hemp, Heap.next_of_get hp, bind, Except.bind]
  · have hs : l.size_ = 0 := hv.size
    simp [EraseAfter, SingleLinkedList.IsEmpty, hs]

/-- C12: starting from a freshly constructed empty list, every sequence of `PushFront`
and `PopFront` calls in which each `PopFront` meets a non-empty list runs to the end;
afterwards `GetSize()` is the number of pushes minus the number of pops, and if the
sequence has no pop the traversal yields the pushed values, last pushed first. -/
theorem C12_push_pop_size [Inhabited α] (fuel : Nat) (h : Heap α) (ops : List (FrontOp α))
    (hg : PopsGuarded 0 ops) (hf : pushCount ops < fuel) :
    ∃ g l, runFrontOps (init h).1 (init h).2 ops = .ok (g, l) ∧
      popCount ops ≤ pushCount ops ∧ l.GetSize = pushCount ops - popCount ops ∧
      (popCount ops = 0 → traverse fuel g l = .ok (pushedValues ops).reverse) := by
  obtain ⟨_, _, hv0, _⟩ := init_spec h
  obtain ⟨g, l, as, xs, hr, hv, hcount, hval⟩ := runFrontOps_spec ops hv0 hg
  simp only [List.length_nil, Nat.zero_add] at hcount
  refine ⟨g, l, hr, by omega, ?_, fun hz => ?_⟩
  · simp only [GetSize, hv.size]
    omega
  · have := hval hz
    simp only [List.append_nil] at this
    rw [← this]
    exact hv.traverse_eq fuel (by omega)

/-- Witness of C12: push `1`, push `2`, pop, on a fresh list in the empty heap. -/
theorem C12_push_pop_size_witness :
    PopsGuarded 0 [FrontOp.push 1, FrontOp.push 2, FrontOp.pop] ∧
    pushCount [FrontOp.push 1, FrontOp.push 2, FrontOp.pop] < 3 ∧
    ∃ g l, runFrontOps (init ([] : Heap Nat)).1 (init ([] : Heap Nat)).2
        [FrontOp.push 1, FrontOp.push 2, FrontOp.pop] = .ok (g, l) ∧
      popCount [FrontOp.push 1, FrontOp.push 2, FrontOp.pop] ≤
        pushCount [FrontOp.push 1, FrontOp.push 2, FrontOp.pop] ∧
      l.GetSize = pushCount [FrontOp.push 1, FrontOp.push 2, FrontOp.pop] -
        popCount [FrontOp.push 1, FrontOp.push 2, FrontOp.pop] ∧
      (popCount [FrontOp.push 1, FrontOp.push 2, FrontOp.pop] = 0 →
        traverse 3 g l = .ok (pushedValues [FrontOp.push 1, FrontOp.push 2, FrontOp.pop]).reverse) :=
  ⟨⟨by decide, trivial⟩, by decide,
    C12_push_pop_size 3 [] [FrontOp.push 1, FrontOp.push 2, FrontOp.pop]
      ⟨by decide, trivial⟩ (by decide)⟩

/-- C13: on a well-formed list `PopFront` returns exactly when the list is non-empty; on
an empty list its assertion fails; on a list holding `x :: rest` it leaves a well-formed
list holding `rest` in the same order, with `GetSize()` smaller by exactly one. -/
theorem C13_pop_front (fuel : Nat) (h : Heap α) (l : SingleLinkedList) (as : List Nat)
    (xs : List α) (hv : Valid h l as xs) (hf : xs.length < fuel) :
    ((∃ r, PopFront h l = .ok r) ↔ xs ≠ []) ∧
    (xs = [] → PopFront h l = .error .assertion) ∧
    (∀ x rest, xs = x :: rest → ∃ g l', PopFront h l = .ok (g, l') ∧
      traverse fuel g l' = .ok rest ∧ l'.GetSize + 1 = l.GetSize ∧
      Valid g l' as.tail rest) := by
  have hlen := hv.chain.length_eq
  have key : ∀ x rest, xs = x :: rest → ∃ g l', PopFront h l = .ok (g, l') ∧
      traverse fuel g l' = .ok rest ∧ l'.GetSize + 1 = l.GetSize ∧
      Valid g l' as.tail rest := by
    intro x rest hx
    subst hx
    match as, hv, hlen with
    | a :: as, hv, _ =>
      obtain ⟨g, hp, hvg, _, _⟩ := PopFront_spec hv
      refine ⟨g, _, hp, hvg.traverse_eq fuel (by simp at hf; omega), ?_, hvg⟩
      simp [GetSize, hv.size]
    | [], _, hlen => simp at hlen
  have hemp : xs = [] → PopFront h l = .error .assertion := by
    rintro rfl
    have : as = [] := List.length_eq_zero.1 (by simpa using hlen)
    subst this
    exact PopFront_empty hv
  refine ⟨⟨fun ⟨r, hr⟩ hx => ?_, fun hx => ?_⟩, hemp, key⟩
  · rw [hemp hx] at hr
    simp at hr
  · match xs, hx, key with
    | x :: rest, _, key =>
      obtain ⟨g, l', hp, _⟩ := key x rest rfl
      exact ⟨_, hp⟩
    | [], hx, _ => exact absurd rfl hx

/-- Witness of C13 at the list `{10, 20}` of `demoHeap`. -/
theorem C13_pop_front_witness :
    Valid demoHeap demoList [1, 2] [10, 20] ∧ [10, 20].length < 3 ∧
    ((∃ r, PopFront demoHeap demoList = .ok r) ↔ [10, 20] ≠ []) ∧
    ([10, 20] = [] → PopFront demoHeap demoList = .error .assertion) ∧
    (∀ x rest, [10, 20] = x :: rest → ∃ g l', PopFront demoHeap demoList = .ok (g, l') ∧
      traverse 3 g l' = .ok rest ∧ l'.GetSize + 1 = demoList.GetSize ∧
      Valid g l' [1, 2].tail rest) :=
  ⟨demoList_valid, by decide,
    C13_pop_front 3 demoHeap demoList [1, 2] [10, 20] demoList_valid (by decide)⟩


/-- C14: on a well-formed list `Clear()` returns (with fuel above the length) and leaves
a well-formed empty list: `GetSize()` is `0`, `IsEmpty()` is true and `begin()` is
`end()`; on a list that is already empty neither the heap nor the object changes. -/
theorem C14_clear (fuel : Nat) (h : Heap α) (l : SingleLinkedList) (as : List Nat)
    (xs : List α) (hv : Valid h l as xs) (hf : xs.length < fuel) :
    ∃ g l', Clear fuel h l = .ok (g, l') ∧ l'.GetSize = 0 ∧ l'.IsEmpty = true ∧
      begin g l' = .ok l'.end_ ∧ traverse fuel g l' = .ok [] ∧ Valid g l' [] [] ∧
      (xs = [] → g = h ∧ l' = l) := by
  have hlen := hv.chain.length_eq
  obtain ⟨g, hc, hvg, _, _⟩ := Clear_spec fuel hv (by omega)
  refine ⟨g, _, hc, rfl, rfl, hvg.begin_eq, hvg.traverse_eq fuel (by simp; omega), hvg,
    fun hx => ?_⟩
  subst hx
  have : as = [] := List.length_eq_zero.1 (by simpa using hlen)
  subst this
  have he := Clear_empty fuel hv (by omega)
  rw [he] at hc
  simp only [Except.ok.injEq, Prod.mk.injEq] at hc
  exact ⟨hc.1.symm, hc.2.symm⟩

/-- Witness of C14 at the list `{10, 20}` of `demoHeap`. -/
theorem C14_clear_witness :
    Valid demoHeap demoList [1, 2] [10, 20] ∧ [10, 20].length < 3 ∧
    ∃ g l', Clear 3 demoHeap demoList = .ok (g, l') ∧ l'.GetSize = 0 ∧ l'.IsEmpty = true ∧
      begin g l' = .ok l'.end_ ∧ traverse 3 g l' = .ok [] ∧ Valid g l' [] [] ∧
      ([10, 20] = [] → g = demoHeap ∧ l' = demoList) :=
  ⟨demoList_valid, by decide,
    C14_clear 3 demoHeap demoList [1, 2] [10, 20] demoList_valid (by decide)⟩

/-- C15: let `a` and `b` be two well-formed lists, distinct objects neither of whose
sentinels is a node of the other.  Then `a.swap(b)` returns, and so does the free
function `swap(a, b)` with the same result: `a` now consists of the former nodes of `b`
(traversal and `GetSize()` of the former `b`), `b` of the former nodes of `a`; no node
is allocated.  Swapping a list with itself changes nothing. -/
theorem C15_swap (fuel : Nat) (h : Heap α) (a b : SingleLinkedList) (as bs : List Nat)
    (xs ys : List α) (ha : Valid h a as xs) (hb : Valid h b bs ys)
    (hne : a.head_ ≠ b.head_) (hab : a.head_ ∉ bs) (hba : b.head_ ∉ as)
    (hf1 : xs.length < fuel) (hf2 : ys.length < fuel) :
    ∃ g a' b', swap h a b = .ok (g, a', b') ∧ swapFree h a b = .ok (g, a', b') ∧
      traverse fuel g a' = .ok ys ∧ a'.GetSize = b.GetSize ∧
      traverse fuel g b' = .ok xs ∧ b'.GetSize = a.GetSize ∧
      Valid g a' bs ys ∧ Valid g b' as xs ∧ a'.head_ = a.head_ ∧ b'.head_ = b.head_ ∧
      g.length = h.length ∧ swap h a a = .ok (h, a, a) := by
  obtain ⟨g, hs, hva, hvb, _, hl⟩ := swap_spec ha hb hne hab hba
  exact ⟨g, _, _, hs, hs, hva.traverse_eq fuel hf2, rfl, hvb.traverse_eq fuel hf1, rfl, hva,
    hvb, rfl, rfl, hl, swap_self ha⟩

/-- Witness of C15: swapping the lists `{10, 20}` and `{10, 20, 30}` of `demoHeap`. -/
theorem C15_swap_witness :
    Valid demoHeap demoList [1, 2] [10, 20] ∧ Valid demoHeap demoList3 [4, 5, 6] [10, 20, 30] ∧
    demoList.head_ ≠ demoList3.head_ ∧ demoList.head_ ∉ [4, 5, 6] ∧
    demoList3.head_ ∉ [1, 2] ∧ [10, 20].length < 4 ∧ [10, 20, 30].length < 4 ∧
    ∃ g a' b', swap demoHeap demoList demoList3 = .ok (g, a', b') ∧
      swapFree demoHeap demoList demoList3 = .ok (g, a', b') ∧
      traverse 4 g a' = .ok [10, 20, 30] ∧ a'.GetSize = demoList3.GetSize ∧
      traverse 4 g b' = .ok [10, 20] ∧ b'.GetSize = demoList.GetSize ∧
      Valid g a' [4, 5, 6] [10, 20, 30] ∧ Valid g b' [1, 2] [10, 20] ∧
      a'.head_ = demoList.head_ ∧ b'.head_ = demoList3.head_ ∧
      g.length = demoHeap.length ∧ swap demoHeap demoList demoList = .ok (demoHeap, demoList, demoList) :=
  ⟨demoList_valid, demoList3_valid, by decide, by decide, by decide, by decide, by decide,
    C15_swap 4 demoHeap demoList demoList3 [1, 2] [4, 5, 6] [10, 20] [10, 20, 30]
      demoList_valid demoList3_valid (by decide) (by decide) (by decide) (by decide)
      (by decide)⟩

/-- C16: let `b` be copy-constructed from a well-formed list `a` holding `xs`.  Then
every mutation of `b` whose precondition holds (`PushFront`, `PopFront` on non-empty
`b`, `Clear`, `InsertAfter` at a position of `b`, `EraseAfter` at a position of `b` with
a successor) returns and leaves `a` made of the same nodes holding `xs`, with the same
stored size; and every such mutation of `a` leaves `b` holding `xs` likewise. -/
theorem C16_copy_independent [Inhabited α] (fuel : Nat) (h : Heap α) (a : SingleLinkedList)
    (as : List Nat) (xs : List α) (hv : Valid h a as xs) (hf : xs.length < fuel) :
    ∃ g b bs, copy fuel h a = .ok (g, b) ∧ Valid g a as xs ∧ Valid g b bs xs ∧
      (∀ m : Mutation α, m.Pre b bs → ∃ g' b', mutate fuel g b m = .ok (g', b') ∧
        Valid g' a as xs ∧ traverse fuel g' a = .ok xs ∧ a.GetSize = xs.length) ∧
      (∀ m : Mutation α, m.Pre a as → ∃ g' a', mutate fuel g a m = .ok (g', a') ∧
        Valid g' b bs xs ∧ traverse fuel g' b = .ok xs ∧ b.GetSize = xs.length) := by
  obtain ⟨g, bs, hc, hvb, hfr, hbs⟩ := copy_spec fuel hv hf
  have hva : Valid g a as xs := hv.carry hfr (by simp)
  have hdis : ∀ p ∈ a.head_ :: as, p ∉ h.length :: bs := by
    intro p hp hp2
    have hlt : p < h.length := by
      rcases List.mem_cons.1 hp with rfl | hp
      · exact hv.head_lt
      · exact hv.chain.lt_length p hp
    rcases List.mem_cons.1 hp2 with rfl | hp2
    · exact Nat.lt_irrefl _ hlt
    · have := hbs p hp2
      omega
  refine ⟨g, _, bs, hc, hva, hvb, fun m hpre => ?_, fun m hpre => ?_⟩
  · obtain ⟨g', b', _, _, hm, _, hfm⟩ := mutate_spec fuel m hvb hpre
      (by rw [hvb.chain.length_eq]; exact hf)
    have hva' : Valid g' a as xs := hva.carry hfm hdis
    exact ⟨g', b', hm, hva', hva'.traverse_eq fuel hf, hv.size⟩
  · obtain ⟨g', a', _, _, hm, _, hfm⟩ := mutate_spec fuel m hva hpre
      (by rw [hva.chain.length_eq]; exact hf)
    have hvb' : Valid g' ⟨h.length, xs.length⟩ bs xs :=
      hvb.carry hfm (fun p hp hp2 => hdis p hp2 hp)
    exact ⟨g', a', hm, hvb', hvb'.traverse_eq fuel hf, rfl⟩

/-- Witness of C16 at the list `{10, 20}` of `demoHeap`. -/
theorem C16_copy_independent_witness :
    Valid demoHeap demoList [1, 2] [10, 20] ∧ [10, 20].length < 3 ∧
    ∃ g b bs, copy 3 demoHeap demoList = .ok (g, b) ∧ Valid g demoList [1, 2] [10, 20] ∧
      Valid g b bs [10, 20] ∧
      (∀ m : Mutation Nat, m.Pre b bs → ∃ g' b', mutate 3 g b m = .ok (g', b') ∧
        Valid g' demoList [1, 2] [10, 20] ∧ traverse 3 g' demoList = .ok [10, 20] ∧
        demoList.GetSize = [10, 20].length) ∧
      (∀ m : Mutation Nat, m.Pre demoList [1, 2] → ∃ g' a', mutate 3 g demoList m = .ok (g', a') ∧
        Valid g' b bs [10, 20] ∧ traverse 3 g' b = .ok [10, 20] ∧
        b.GetSize = [10, 20].length) :=
  ⟨demoList_valid, by decide,
    C16_copy_independent 3 demoHeap demoList [1, 2] [10, 20] demoList_valid (by decide)⟩


/-- C17: the size invariant `SizeInv` (following `next_node` from `head_.next_node`
reaches `nullptr` after exactly `size_` nodes) is the same as being a well-formed list;
it holds for the list made by each constructor (empty, initializer list, copy) and is
preserved by `PushFront`, by `PopFront` on a non-empty list, by `Clear`, by `swap` (of
two separate lists, and of a list with itself), by copy assignment, by `InsertAfter`
at a position of the list and by `EraseAfter` at a position of the list whose
successor exists.  Each of these calls returns. -/
theorem C17_size_invariant [Inhabited α] :
    (∀ (h : Heap α) (l : SingleLinkedList), SizeInv h l ↔ ∃ as xs, Valid h l as xs) ∧
    (∀ (h : Heap α), SizeInv (init h).1 (init h).2) ∧
    (∀ (fuel : Nat) (h : Heap α) (vs : List α), vs.length < fuel →
      ∃ g l, ofValues fuel h vs = .ok (g, l) ∧ SizeInv g l) ∧
    (∀ (fuel : Nat) (h : Heap α) (src : SingleLinkedList), SizeInv h src → src.size_ < fuel →
      ∃ g l, copy fuel h src = .ok (g, l) ∧ SizeInv g l ∧ SizeInv g src) ∧
    (∀ (h : Heap α) (l : SingleLinkedList) (v : α), SizeInv h l →
      ∃ g l', PushFront h l v = .ok (g, l') ∧ SizeInv g l') ∧
    (∀ (h : Heap α) (l : SingleLinkedList), SizeInv h l → l.IsEmpty = false →
      ∃ g l', PopFront h l = .ok (g, l') ∧ SizeInv g l') ∧
    (∀ (fuel : Nat) (h : Heap α) (l : SingleLinkedList), SizeInv h l → l.size_ < fuel →
      ∃ g l', Clear fuel h l = .ok (g, l') ∧ SizeInv g l') ∧
    (∀ (h : Heap α) (a b : SingleLinkedList), SizeInv h a → SizeInv h b →
      ¬ Position h b a.head_ → ¬ Position h a b.head_ →
      ∃ g a' b', swap h a b = .ok (g, a', b') ∧ SizeInv g a' ∧ SizeInv g b') ∧
    (∀ (h : Heap α) (a : SingleLinkedList), SizeInv h a →
      ∃ g a' b', swap h a a = .ok (g, a', b') ∧ SizeInv g a' ∧ SizeInv g b') ∧
    (∀ (fuel : Nat) (h : Heap α) (this rhs : SingleLinkedList), SizeInv h this →
      SizeInv h rhs → this.size_ < fuel → rhs.size_ < fuel →
      ∃ g l', assign fuel h this rhs = .ok (g, l') ∧ SizeInv g l') ∧
    (∀ (h : Heap α) (l : SingleLinkedList) (p : Nat) (v : α), SizeInv h l → Position h l p →
      ∃ g l' it, InsertAfter h l ⟨some p⟩ v = .ok (g, l', it) ∧ SizeInv g l') ∧
    (∀ (h : Heap α) (l : SingleLinkedList) (p s : Nat), SizeInv h l → Position h l p →
      h.next p = .ok (some s) →
      ∃ g l' it, EraseAfter h l ⟨some p⟩ = .ok (g, l', it) ∧ SizeInv g l') := by
  refine ⟨fun _ _ => sizeInv_iff_valid, fun h => (init_spec h).2.2.1.sizeInv,
    fun fuel h vs hf => ?_, fun fuel _ _ hi hf => sizeInv_copy fuel hi hf,
    fun h l v hi => ?_, fun _ _ hi he => sizeInv_PopFront hi he,
    fun fuel _ _ hi hf => sizeInv_Clear fuel hi hf,
    fun _ _ _ ha hb hab hba => sizeInv_swap ha hb hab hba, fun h a ha => ?_,
    fun fuel _ _ _ ht hr hf1 hf2 => sizeInv_assign fuel ht hr hf1 hf2,
    fun _ _ _ v hi hp => sizeInv_InsertAfter v hi hp,
    fun _ _ _ _ hi hp hn => sizeInv_EraseAfter hi hp hn⟩
  · obtain ⟨g, bs, ho, hv, _, _⟩ := ofValues_spec fuel h vs hf
    exact ⟨g, _, ho, hv.sizeInv⟩
  · obtain ⟨as, xs, hv⟩ := hi.valid
    obtain ⟨g, hp, hvg, _, _⟩ := PushFront_spec hv v
    exact ⟨g, _, hp, hvg.sizeInv⟩
  · obtain ⟨as, xs, hv⟩ := ha.valid
    exact ⟨h, a, a, swap_self hv, ha, ha⟩

/-- Witness of C17: the list `{10, 20}` of `demoHeap` satisfies the size invariant, and
so does the list left by `PushFront(5)`. -/
theorem C17_size_invariant_witness :
    SizeInv demoHeap demoList ∧
    ∃ g l', PushFront demoHeap demoList 5 = .ok (g, l') ∧ SizeInv g l' :=
  ⟨⟨3, rfl⟩, C17_size_invariant.2.2.2.2.1 demoHeap demoList 5 ⟨3, rfl⟩⟩


/-- C18: for a well-formed list of size `n` holding `xs`, incrementing `begin()` `k` times
with `k < n` yields a position, different from `end()`, that dereferences to the element
at index `k`; incrementing it exactly `n` times yields `end()`; incrementing
`before_begin()` once yields `begin()`; and incrementing `end()` fails the assertion
of `operator++`. -/
theorem C18_iterator_increment (h : Heap α) (l : SingleLinkedList) (as : List Nat)
    (xs : List α) (hv : Valid h l as xs) :
    ∃ b, begin h l = .ok b ∧ l.GetSize = xs.length ∧
      (∀ k (hk : k < xs.length), ∃ it, advance k h b = .ok it ∧ it.deref h = .ok xs[k] ∧
        it.ne l.end_ = true) ∧
      advance l.GetSize h b = .ok l.end_ ∧
      l.before_begin.incr h = .ok b ∧
      l.end_.incr h = .error .assertion := by
  have hlen := hv.chain.length_eq
  obtain ⟨sv, hs⟩ := hv.head
  refine ⟨⟨as.head?⟩, hv.begin_eq, hv.size, fun k hk => ?_, ?_, ?_, rfl⟩
  · have hka : k < as.length := by omega
    refine ⟨⟨as[k]?⟩, advance_chain k hv.chain (Nat.le_of_lt hka), hv.chain.deref_index k hk, ?_⟩
    simp [BasicIterator.ne, end_, List.getElem?_eq_getElem hka]
  · have := advance_chain as.length hv.chain (Nat.le_refl _)
    rw [List.getElem?_eq_none (Nat.le_refl _)] at this
    simp only [GetSize, hv.size, ← hlen]
    exact this
  · simp [before_begin, BasicIterator.incr, Heap.next_of_get hs]

/-- Witness of C18 at the list `{10, 20}` of `demoHeap`. -/
theorem C18_iterator_increment_witness :
    Valid demoHeap demoList [1, 2] [10, 20] ∧
    ∃ b, begin demoHeap demoList = .ok b ∧ demoList.GetSize = [10, 20].length ∧
      (∀ k (hk : k < [10, 20].length), ∃ it, advance k demoHeap b = .ok it ∧
        it.deref demoHeap = .ok [10, 20][k] ∧ it.ne demoList.end_ = true) ∧
      advance demoList.GetSize demoHeap b = .ok demoList.end_ ∧
      demoList.before_begin.incr demoHeap = .ok b ∧
      demoList.end_.incr demoHeap = .error .assertion :=
  ⟨demoList_valid, C18_iterator_increment demoHeap demoList [1, 2] [10, 20] demoList_valid⟩

/-- C20: for a well-formed list holding `xs` and a position `pos` of it (the `k`-th node
of the chain `head_ :: as`), `InsertAfter(pos, v)` followed by `EraseAfter(pos)` both
return and leave a well-formed list made of the original nodes holding `xs`, with the
original `GetSize()`; the position returned by `EraseAfter` is the original successor
of `pos`, or `end()` if `pos` had none. -/
theorem C20_insert_then_erase (fuel : Nat) (h : Heap α) (l : SingleLinkedList)
    (as : List Nat) (xs : List α) (k p : Nat) (v : α) (hv : Valid h l as xs)
    (hk : (l.head_ :: as)[k]? = some p) (hf : xs.length < fuel) :
    ∃ g1 l1 it1 g2 l2 it2, InsertAfter h l ⟨some p⟩ v = .ok (g1, l1, it1) ∧
      EraseAfter g1 l1 ⟨some p⟩ = .ok (g2, l2, it2) ∧
      Valid g2 l2 as xs ∧ traverse fuel g2 l2 = .ok xs ∧ l2.GetSize = l.GetSize ∧
      BasicIterator.incr h ⟨some p⟩ = .ok it2 ∧ it2.node_ = as[k]? ∧
      (as[k]? = none → it2 = l.end_) := by
  obtain ⟨g1, l1, it1, g2, hi, he, hv2⟩ := InsertAfter_EraseAfter_spec v hv hk
  obtain ⟨sv, hfull⟩ := hv.full_chain
  obtain ⟨w, _, hp⟩ := Chain.get_of_index k hfull hk
  refine ⟨g1, l1, it1, g2, l, _, hi, he, hv2, hv2.traverse_eq fuel hf, rfl, ?_, rfl,
    fun hn => ?_⟩
  · simp [BasicIterator.incr, Heap.next_of_get hp]
  · simp [end_, hn]

/-- Witness of C20: inserting `15` after the last element of the list `{10, 20}` of
`demoHeap` and erasing it again. -/
theorem C20_insert_then_erase_witness :
    Valid demoHeap demoList [1, 2] [10, 20] ∧ (demoList.head_ :: [1, 2])[2]? = some 2 ∧
    [10, 20].length < 3 ∧
    ∃ g1 l1 it1 g2 l2 it2, InsertAfter demoHeap demoList ⟨some 2⟩ 15 = .ok (g1, l1, it1) ∧
      EraseAfter g1 l1 ⟨some 2⟩ = .ok (g2, l2, it2) ∧
      Valid g2 l2 [1, 2] [10, 20] ∧ traverse 3 g2 l2 = .ok [10, 20] ∧
      l2.GetSize = demoList.GetSize ∧
      BasicIterator.incr demoHeap ⟨some 2⟩ = .ok it2 ∧ it2.node_ = [1, 2][2]? ∧
      ([1, 2][2]? = none → it2 = demoList.end_) :=
  ⟨demoList_valid, rfl, by decide,
    C20_insert_then_erase 3 demoHeap demoList [1, 2] [10, 20] 2 2 15 demoList_valid rfl
      (by decide)⟩

end SLL
